import Mathlib

/-!
# FileXSorter duplicate-file scanner: a shallow embedding

This file embeds the scan pipeline of `src/scanner.rs` (and the scan entry
point of `src/app.rs`) in Lean and proves the specification's claims about it.

Modelling choices:
* The host filesystem is a structure of pure functions (`FileSys`): the list of
  entries a directory walk yields for a root, and the fallible metadata and
  content reads.  Purity models a filesystem that does not change during the
  scan (the code takes no locks over filesystem state).
* The SHA-256 content digest is an abstract parameter
  `hashContent : List Nat → String` mapping a file's full byte stream to its
  hex digest; the chunked-read loop of `compute_file_hash` computes exactly
  the digest of the whole stream, so it is modelled by one application.
* The shared atomics (cancellation flag, the two progress counters) are
  modelled by explicit state passing (`ScanSt`).  The flag is an oracle
  `cancel : Nat → Bool` giving the value observed by the i-th load of the
  flag; `ScanSt.reads` counts loads so far.  `ScanSt.totalStores` records the
  trace of values stored into `progress_total`.
* Rust `HashMap` iteration order is unspecified; grouping is modelled as an
  association list in first-insertion key order (one admissible order), and
  the rayon parallel hash map is linearized to a sequential map (one
  admissible schedule; result order is the input order, as `collect` on an
  indexed parallel iterator preserves it).
* `Vec::sort_by` is a stable sort; it is modelled by a stable insertion sort
  with the same comparator (a stable sort by a total preorder is unique, so
  any stable algorithm yields the same list).
-/

namespace FileXSorter

/-- `const MAX_FILE_SIZE: u64 = 10 * 1024 * 1024 * 1024;` -/
def MAX_FILE_SIZE : Nat := 10 * 1024 * 1024 * 1024

/-- `const MAX_PARALLEL_THREADS: usize = 8;` (worker-pool cap; no claim
depends on it, recorded for completeness). -/
def MAX_PARALLEL_THREADS : Nat := 8

/-- `struct FileEntry { path, name, size, hash }` -/
structure FileEntry where
  path : String
  name : String
  size : Nat
  hash : Option String
deriving DecidableEq

instance : Inhabited FileEntry := ⟨⟨"", "", 0, none⟩⟩

/-- `FileEntry::new` sets `hash: None`. -/
def FileEntry.new (path name : String) (size : Nat) : FileEntry :=
  { path := path, name := name, size := size, hash := none }

/-- `struct DuplicateGroup { hash, files, total_size, wasted_size }` -/
structure DuplicateGroup where
  hash : String
  files : List FileEntry
  total_size : Nat
  wasted_size : Nat
deriving DecidableEq

/-- `struct ScanResult` with `#[derive(Default)]` field defaults. -/
structure ScanResult where
  total_files : Nat := 0
  total_size : Nat := 0
  duplicate_groups : List DuplicateGroup := []
  total_duplicates : Nat := 0
  wasted_space : Nat := 0
  errors : List String := []
deriving DecidableEq

/-- `struct ScannerConfig { recursive, min_size }` -/
structure ScannerConfig where
  recursive : Bool
  min_size : Nat
deriving DecidableEq

/-- `impl Default for ScannerConfig` -/
def ScannerConfig.default : ScannerConfig :=
  { recursive := true, min_size := 1 }

/-- One entry yielded by the `walkdir` walk, after `filter_map(|e| e.ok())`
has dropped walk errors. -/
structure DirEntry where
  path : String
  isFile : Bool
deriving DecidableEq

/-- The host filesystem, as the scanner observes it.  `walk root recursive`
is the entry sequence the (possibly depth-limited) walk of `root` yields;
`meta p` is `fs::metadata(p).len()` or the error's display string;
`content p` is the full byte stream read by the chunked hashing loop, or the
open/read error's display string. -/
structure FileSys where
  walk : String → Bool → List DirEntry
  meta : String → Except String Nat
  content : String → Except String (List Nat)

/-- Characters of the last slash-separated component of a path. -/
def fileNameAux : List Char → List Char → List Char
  | [], acc => acc
  | c :: rest, acc =>
    if c = '/' then fileNameAux rest [] else fileNameAux rest (acc ++ [c])

/-- `Path::file_name().map(|n| n.to_string_lossy().to_string()).unwrap_or_default()`
for ordinary slash-separated paths: the last path component. -/
def fileName (p : String) : String :=
  String.mk (fileNameAux p.data [])

/-- The shared atomics as explicit state: `reads` counts loads of the
cancellation flag (the oracle is consulted at this index), `current` and
`total` are the progress counters, `totalStores` the trace of stores into
the total counter. -/
structure ScanSt where
  reads : Nat := 0
  current : Nat := 0
  total : Nat := 0
  totalStores : List Nat := []
deriving DecidableEq

/-- `cancel_flag.load(Ordering::Relaxed)` -/
def loadCancel (cancel : Nat → Bool) (s : ScanSt) : Bool × ScanSt :=
  (cancel s.reads, { s with reads := s.reads + 1 })

/-- `progress_total.store(n, Ordering::Relaxed)` -/
def storeTotal (n : Nat) (s : ScanSt) : ScanSt :=
  { s with total := n, totalStores := s.totalStores ++ [n] }

/-- `progress_current.store(n, Ordering::Relaxed)` -/
def storeCurrent (n : Nat) (s : ScanSt) : ScanSt :=
  { s with current := n }

/-- `progress_current.fetch_add(1, Ordering::Relaxed)` -/
def incCurrent (s : ScanSt) : ScanSt :=
  { s with current := s.current + 1 }

/-- The body of the entry loop of `collect_files_with_cancel`: per entry,
check the flag (break if set), then for regular files read metadata, keep
the file when `min_size <= size <= MAX_FILE_SIZE`, and record a read error
otherwise; non-files are skipped.  Returns collected files, recorded
errors, and the updated shared state. -/
def collectEntries (cfg : ScannerConfig) (fs : FileSys) (cancel : Nat → Bool) :
    List DirEntry → ScanSt → List FileEntry × List String × ScanSt
  | [], st => ([], [], st)
  | e :: rest, st =>
    let c := loadCancel cancel st
    if c.1 then ([], [], c.2)
    else if e.isFile then
      match fs.meta e.path with
      | .ok size =>
        if cfg.min_size ≤ size ∧ size ≤ MAX_FILE_SIZE then
          let r := collectEntries cfg fs cancel rest c.2
          (FileEntry.new e.path (fileName e.path) size :: r.1, r.2.1, r.2.2)
        else
          collectEntries cfg fs cancel rest c.2
      | .error err =>
        let r := collectEntries cfg fs cancel rest c.2
        (r.1, ("Failed to read " ++ e.path ++ ": " ++ err) :: r.2.1, r.2.2)
    else
      collectEntries cfg fs cancel rest c.2

/-- `collect_files_with_cancel`: walk one root (depth-limited unless
`recursive`) and run the entry loop. -/
def collect_files_with_cancel (cfg : ScannerConfig) (fs : FileSys)
    (cancel : Nat → Bool) (path : String) (st : ScanSt) :
    List FileEntry × List String × ScanSt :=
  collectEntries cfg fs cancel (fs.walk path cfg.recursive) st

/-- The root loop of `scan_directories_with_progress` (lines 162-170):
before each root, load the flag and return early (first component `true`)
if set; otherwise append that root's files and errors. -/
def collectRoots (cfg : ScannerConfig) (fs : FileSys) (cancel : Nat → Bool) :
    List String → List FileEntry → List String → ScanSt →
    Bool × List FileEntry × List String × ScanSt
  | [], files, errors, st => (false, files, errors, st)
  | p :: rest, files, errors, st =>
    let c := loadCancel cancel st
    if c.1 then (true, files, errors, c.2)
    else
      let r := collect_files_with_cancel cfg fs cancel p c.2
      collectRoots cfg fs cancel rest (files ++ r.1) (errors ++ r.2.1) r.2.2

/-- `compute_file_hash`: re-read metadata, reject files over the ceiling
with an oversize error, otherwise stream the content through SHA-256
(modelled as one application of `hashContent` to the full byte stream). -/
def compute_file_hash (fs : FileSys) (hashContent : List Nat → String)
    (path : String) : Except String String :=
  match fs.meta path with
  | .error e => .error e
  | .ok len =>
    if MAX_FILE_SIZE < len then
      .error ("File too large (" ++ toString len ++ " > "
              ++ toString MAX_FILE_SIZE ++ " bytes)")
    else
      match fs.content path with
      | .error e => .error e
      | .ok bytes => .ok (hashContent bytes)

/-- One task of the parallel map in `hash_files`: check the flag, then hash
and bump the processed counter on success, or produce the formatted error. -/
def hashOne (fs : FileSys) (hashContent : List Nat → String)
    (cancel : Nat → Bool) (file : FileEntry) (st : ScanSt) :
    Except String FileEntry × ScanSt :=
  let c := loadCancel cancel st
  if c.1 then (.error "Cancelled", c.2)
  else
    match compute_file_hash fs hashContent file.path with
    | .ok h => (.ok { file with hash := some h }, incCurrent c.2)
    | .error e =>
      (.error ("Failed to hash " ++ file.path ++ ": " ++ e), c.2)

/-- The `par_iter().map(..).collect()` of `hash_files`, linearized to a
sequential map threading the shared state (one admissible schedule; the
result vector is in input order either way). -/
def hashMap (fs : FileSys) (hashContent : List Nat → String)
    (cancel : Nat → Bool) :
    List FileEntry → ScanSt → List (Except String FileEntry) × ScanSt
  | [], st => ([], st)
  | f :: rest, st =>
    let r := hashOne fs hashContent cancel f st
    let rs := hashMap fs hashContent cancel rest r.2
    (r.1 :: rs.1, rs.2)

/-- The result loop of `hash_files`: `Ok` entries are kept, errors other
than `"Cancelled"` are recorded, `"Cancelled"` markers are dropped. -/
def splitHashResults :
    List (Except String FileEntry) → List FileEntry × List String
  | [] => ([], [])
  | .ok f :: rest =>
    let r := splitHashResults rest
    (f :: r.1, r.2)
  | .error e :: rest =>
    let r := splitHashResults rest
    if e = "Cancelled" then r else (r.1, e :: r.2)

/-- `hash_files`: parallel hash with progress, then split results into
hashed files and recorded errors. -/
def hash_files (fs : FileSys) (hashContent : List Nat → String)
    (cancel : Nat → Bool) (files : List FileEntry) (st : ScanSt) :
    List FileEntry × List String × ScanSt :=
  let rs := hashMap fs hashContent cancel files st
  let s := splitHashResults rs.1
  (s.1, s.2, rs.2)

/-- `groups.entry(k).or_default().push(f)`: append `f` to the bucket of key
`k`, creating the bucket (at the end, first-insertion order) if absent. -/
def insertBy {κ : Type} [DecidableEq κ] (k : κ) (f : FileEntry) :
    List (κ × List FileEntry) → List (κ × List FileEntry)
  | [] => [(k, [f])]
  | (k', fl) :: rest =>
    if k' = k then (k', fl ++ [f]) :: rest else (k', fl) :: insertBy k f rest

/-- Keyed grouping shared by `group_by_size` and `group_by_hash` (both build
a `HashMap<_, Vec<FileEntry>>` this way; files whose key is absent are
skipped). -/
def groupByKey {κ : Type} [DecidableEq κ] (key : FileEntry → Option κ)
    (files : List FileEntry) : List (κ × List FileEntry) :=
  files.foldl
    (fun acc f =>
      match key f with
      | some k => insertBy k f acc
      | none => acc) []

/-- `group_by_size`: partition by exact byte size. -/
def group_by_size (files : List FileEntry) : List (Nat × List FileEntry) :=
  groupByKey (fun f => some f.size) files

/-- `group_by_hash`: partition by digest; files with `hash == None` are
skipped. -/
def group_by_hash (files : List FileEntry) : List (String × List FileEntry) :=
  groupByKey (fun f => f.hash) files

/-- The size-prefilter (lines 181-185): keep only size buckets with more
than one member and concatenate them. -/
def potentialDuplicates (files : List FileEntry) : List FileEntry :=
  ((group_by_size files).filter (fun g => 1 < g.2.length)).flatMap Prod.snd

/-- The group-assembly loop (lines 207-222): for each hash bucket with more
than one member, build a `DuplicateGroup` with `total_size` the sum of
member sizes and `wasted_size = total_size - files[0].size`, accumulating
`total_duplicates += len - 1` and `wasted_space += wasted_size`. -/
def buildGroups :
    List (String × List FileEntry) → List DuplicateGroup × Nat × Nat
  | [] => ([], 0, 0)
  | (h, files) :: rest =>
    let r := buildGroups rest
    if 1 < files.length then
      let total_size := (files.map FileEntry.size).sum
      let wasted_size := total_size - files.headI.size
      ({ hash := h, files := files, total_size := total_size,
         wasted_size := wasted_size } :: r.1,
       files.length - 1 + r.2.1, wasted_size + r.2.2)
    else r

/-- Stable insertion for the final `sort_by(|a, b| b.wasted_size.cmp(&a.wasted_size))`:
`g` is placed before the first element whose `wasted_size` is not strictly
greater, so earlier groups stay before later groups with equal key. -/
def insertDesc (g : DuplicateGroup) :
    List DuplicateGroup → List DuplicateGroup
  | [] => [g]
  | h :: t =>
    if g.wasted_size < h.wasted_size then h :: insertDesc g t else g :: h :: t

/-- The stable descending sort by `wasted_size` (lines 224-226). -/
def sortByWastedDesc (l : List DuplicateGroup) : List DuplicateGroup :=
  l.foldr insertDesc []

/-- `scan_directories_with_progress`: reset the counters, collect all roots
(with per-root and per-entry flag checks), check the flag, compute totals,
size-prefilter, check the flag (short-circuited when nothing survives the
prefilter), publish the total, hash with progress, check the flag, group by
digest, assemble groups and summary statistics, and sort. -/
def scan_directories_with_progress (cfg : ScannerConfig) (fs : FileSys)
    (hashContent : List Nat → String) (cancel : Nat → Bool)
    (paths : List String) (st0 : ScanSt) : ScanResult × ScanSt :=
  let st1 := storeTotal 0 (storeCurrent 0 st0)
  match collectRoots cfg fs cancel paths [] [] st1 with
  | (true, _, errors, st) => ({ errors := errors }, st)
  | (false, files, errors, st) =>
    let c := loadCancel cancel st
    if c.1 then ({ errors := errors }, c.2)
    else
      let total_files := files.length
      let total_size := (files.map FileEntry.size).sum
      let pd := potentialDuplicates files
      if pd.isEmpty then
        ({ total_files := total_files, total_size := total_size,
           errors := errors }, c.2)
      else
        let c2 := loadCancel cancel c.2
        if c2.1 then
          ({ total_files := total_files, total_size := total_size,
             errors := errors }, c2.2)
        else
          let st2 := storeCurrent 0 (storeTotal pd.length c2.2)
          let hr := hash_files fs hashContent cancel pd st2
          let errors2 := errors ++ hr.2.1
          let c3 := loadCancel cancel hr.2.2
          if c3.1 then
            ({ total_files := total_files, total_size := total_size,
               errors := errors2 }, c3.2)
          else
            let bg := buildGroups (group_by_hash hr.1)
            ({ total_files := total_files, total_size := total_size,
               duplicate_groups := sortByWastedDesc bg.1,
               total_duplicates := bg.2.1, wasted_space := bg.2.2,
               errors := errors2 }, c3.2)

/-- Association-list bucket lookup: the bucket of key `k`, or `[]` when
absent (used to state what `groupByKey` builds). -/
def findBucket {κ : Type} [DecidableEq κ] (k : κ) :
    List (κ × List FileEntry) → List FileEntry
  | [] => []
  | p :: rest => if p.1 = k then p.2 else findBucket k rest

/-- `collectEntries` when the cancellation flag is never observed set: the
pure collection result (files and recorded errors) of one walk. -/
def collectEntriesNC (cfg : ScannerConfig) (fs : FileSys) :
    List DirEntry → List FileEntry × List String
  | [] => ([], [])
  | e :: rest =>
    if e.isFile then
      match fs.meta e.path with
      | .ok size =>
        if cfg.min_size ≤ size ∧ size ≤ MAX_FILE_SIZE then
          let r := collectEntriesNC cfg fs rest
          (FileEntry.new e.path (fileName e.path) size :: r.1, r.2)
        else
          collectEntriesNC cfg fs rest
      | .error err =>
        let r := collectEntriesNC cfg fs rest
        (r.1, ("Failed to read " ++ e.path ++ ": " ++ err) :: r.2)
    else
      collectEntriesNC cfg fs rest

/-- The root loop when the flag is never observed set: concatenation of the
per-root collections, in root order. -/
def collectRootsNC (cfg : ScannerConfig) (fs : FileSys) :
    List String → List FileEntry × List String
  | [] => ([], [])
  | p :: rest =>
    let r := collectEntriesNC cfg fs (fs.walk p cfg.recursive)
    let rs := collectRootsNC cfg fs rest
    (r.1 ++ rs.1, r.2 ++ rs.2)

/-- One hashing task when the flag is never observed set. -/
def hashOneNC (fs : FileSys) (hashContent : List Nat → String)
    (file : FileEntry) : Except String FileEntry :=
  match compute_file_hash fs hashContent file.path with
  | .ok h => .ok { file with hash := some h }
  | .error e => .error ("Failed to hash " ++ file.path ++ ": " ++ e)

/-- The `ScanResult` of a run during which the cancellation flag is never
observed set (the completed-scan normal form, proved equal to the scan's
result under that hypothesis below). -/
def scanNCResult (cfg : ScannerConfig) (fs : FileSys)
    (hashContent : List Nat → String) (paths : List String) : ScanResult :=
  let col := collectRootsNC cfg fs paths
  let pd := potentialDuplicates col.1
  if pd.isEmpty then
    { total_files := col.1.length, total_size := (col.1.map FileEntry.size).sum,
      errors := col.2 }
  else
    let hr := splitHashResults (pd.map (hashOneNC fs hashContent))
    let bg := buildGroups (group_by_hash hr.1)
    { total_files := col.1.length, total_size := (col.1.map FileEntry.size).sum,
      duplicate_groups := sortByWastedDesc bg.1,
      total_duplicates := bg.2.1, wasted_space := bg.2.2,
      errors := col.2 ++ hr.2 }

/-- The property every collected `FileEntry` satisfies: size read from
metadata, within the configured bounds, digest not yet populated. -/
def CollectedOk (cfg : ScannerConfig) (fs : FileSys) (f : FileEntry) : Prop :=
  fs.meta f.path = .ok f.size ∧ cfg.min_size ≤ f.size ∧
  f.size ≤ MAX_FILE_SIZE ∧ f.hash = none

/-- `start_scan` from `src/app.rs`: an empty folder list is rejected
synchronously with an error status message before any scan work begins (no
thread is spawned, no `ScanResult` is produced); otherwise the scan runs
with `min_size: 1` (modelled synchronously: the spawned thread's only
effect is the returned result). -/
def start_scan (fs : FileSys) (hashContent : List Nat → String)
    (cancel : Nat → Bool) (recursive : Bool)
    (selected_folders : List String) : Except String (ScanResult × ScanSt) :=
  if selected_folders.isEmpty then
    .error "Please add at least one folder to scan."
  else
    .ok (scan_directories_with_progress
          { recursive := recursive, min_size := 1 } fs hashContent cancel
          selected_folders {})

/-! ### Concrete fixtures

A cancellation oracle that never fires, a provably collision-free digest
function (each byte count encoded in unary, so distinct byte streams get
distinct strings), and small concrete filesystems used to instantiate the
theorems. -/

/-- The flag is never set. -/
def ncancel : Nat → Bool := fun _ => false

/-- The flag is already set before the scan starts. -/
def allcancel : Nat → Bool := fun _ => true

/-- Unary encoding of one byte. -/
def encNat (n : Nat) : List Char := List.replicate n 'x'

/-- Unary, comma-separated encoding of a byte stream. -/
def encBytes : List Nat → List Char
  | [] => []
  | n :: rest => encNat n ++ ',' :: encBytes rest

/-- A collision-free stand-in for the SHA-256 hex digest. -/
def unaryHash (l : List Nat) : String := String.mk (encBytes l)

/-- Three files: `a.txt` and `b.txt` have identical two-byte content,
`c.txt` has distinct one-byte content (the spec's concrete scenario). -/
def fsPair : FileSys :=
  { walk := fun r _ =>
      if r = "root" then
        [⟨"root", false⟩, ⟨"root/a.txt", true⟩, ⟨"root/b.txt", true⟩,
         ⟨"root/c.txt", true⟩]
      else []
    content := fun p =>
      if p = "root/a.txt" then .ok [1, 2]
      else if p = "root/b.txt" then .ok [1, 2]
      else if p = "root/c.txt" then .ok [3]
      else .error "No such file"
    meta := fun p =>
      (if p = "root/a.txt" then (Except.ok [1, 2] : Except String (List Nat))
       else if p = "root/b.txt" then .ok [1, 2]
       else if p = "root/c.txt" then .ok [3]
       else .error "No such file").map List.length }

/-- Four files of equal size forming two duplicate pairs with equal wasted
size (a sort tie). -/
def fsTie : FileSys :=
  { walk := fun r _ =>
      if r = "t" then
        [⟨"t", false⟩, ⟨"t/a", true⟩, ⟨"t/b", true⟩, ⟨"t/c", true⟩,
         ⟨"t/d", true⟩]
      else []
    content := fun p =>
      if p = "t/a" then .ok [1]
      else if p = "t/b" then .ok [1]
      else if p = "t/c" then .ok [2]
      else if p = "t/d" then .ok [2]
      else .error "No such file"
    meta := fun p =>
      (if p = "t/a" then (Except.ok [1] : Except String (List Nat))
       else if p = "t/b" then .ok [1]
       else if p = "t/c" then .ok [2]
       else if p = "t/d" then .ok [2]
       else .error "No such file").map List.length }

/-- One file over the 10 GiB ceiling next to an ordinary duplicate pair. -/
def fsBig : FileSys :=
  { walk := fun r _ =>
      if r = "r" then
        [⟨"r", false⟩, ⟨"r/big", true⟩, ⟨"r/a", true⟩, ⟨"r/b", true⟩]
      else []
    content := fun p =>
      if p = "r/a" then .ok [3]
      else if p = "r/b" then .ok [3]
      else .error "No such file"
    meta := fun p =>
      if p = "r/big" then .ok (MAX_FILE_SIZE + 1)
      else if p = "r/a" then .ok 1
      else if p = "r/b" then .ok 1
      else .error "No such file" }

/-- Three files of equal size; reading `e/c` fails with a permission error
at hash time (its metadata is still readable). -/
def fsErr : FileSys :=
  { walk := fun r _ =>
      if r = "e" then
        [⟨"e", false⟩, ⟨"e/a", true⟩, ⟨"e/b", true⟩, ⟨"e/c", true⟩]
      else []
    content := fun p =>
      if p = "e/a" then .ok [1, 2]
      else if p = "e/b" then .ok [1, 2]
      else if p = "e/c" then .error "Permission denied"
      else .error "No such file"
    meta := fun p =>
      if p = "e/a" then .ok 2
      else if p = "e/b" then .ok 2
      else if p = "e/c" then .ok 2
      else .error "No such file" }

/-- A single ordinary file under one root. -/
def fsOne : FileSys :=
  { walk := fun r _ =>
      if r = "d" then [⟨"d", false⟩, ⟨"d/a", true⟩] else []
    content := fun p => if p = "d/a" then .ok [2] else .error "No such file"
    meta := fun p =>
      (if p = "d/a" then (Except.ok [2] : Except String (List Nat))
       else .error "No such file").map List.length }

/-- Three files of pairwise distinct sizes. -/
def fsDistinct : FileSys :=
  { walk := fun r _ =>
      if r = "u" then
        [⟨"u", false⟩, ⟨"u/a", true⟩, ⟨"u/b", true⟩, ⟨"u/c", true⟩]
      else []
    content := fun p =>
      if p = "u/a" then .ok [1]
      else if p = "u/b" then .ok [1, 2]
      else if p = "u/c" then .ok [1, 2, 3]
      else .error "No such file"
    meta := fun p =>
      (if p = "u/a" then (Except.ok [1] : Except String (List Nat))
       else if p = "u/b" then .ok [1, 2]
       else if p = "u/c" then .ok [1, 2, 3]
       else .error "No such file").map List.length }

/-! ### Sorting lemmas -/

theorem insertDesc_perm (g : DuplicateGroup) (l : List DuplicateGroup) :
    (insertDesc g l).Perm (g :: l) := by
  induction l with
  | nil => simp [insertDesc]
  | cons h t ih =>
    simp only [insertDesc]
    split
    · exact (ih.cons h).trans (List.Perm.swap g h t)
    · exact List.Perm.refl _

theorem sortByWastedDesc_perm (l : List DuplicateGroup) :
    (sortByWastedDesc l).Perm l := by
  induction l with
  | nil => exact List.Perm.refl _
  | cons h t ih =>
    exact (insertDesc_perm h (sortByWastedDesc t)).trans (ih.cons h)

theorem mem_sortByWastedDesc (x : DuplicateGroup) (l : List DuplicateGroup) :
    x ∈ sortByWastedDesc l ↔ x ∈ l :=
  (sortByWastedDesc_perm l).mem_iff

theorem pairwise_insertDesc (g : DuplicateGroup) (l : List DuplicateGroup)
    (hl : l.Pairwise (fun a b => b.wasted_size ≤ a.wasted_size)) :
    (insertDesc g l).Pairwise (fun a b => b.wasted_size ≤ a.wasted_size) := by
  induction l with
  | nil => simp [insertDesc]
  | cons h t ih =>
    rcases List.pairwise_cons.mp hl with ⟨hh, ht⟩
    simp only [insertDesc]
    split
    · rename_i hlt
      refine List.pairwise_cons.mpr ⟨?_, ih ht⟩
      intro x hx
      rcases List.mem_cons.mp ((insertDesc_perm g t).mem_iff.mp hx) with hxg | hxt
      · subst hxg; exact Nat.le_of_lt hlt
      · exact hh x hxt
    · rename_i hge
      refine List.pairwise_cons.mpr ⟨?_, hl⟩
      intro x hx
      rcases List.mem_cons.mp hx with hxh | hxt
      · subst hxh; exact Nat.le_of_not_lt hge
      · exact Nat.le_trans (hh x hxt) (Nat.le_of_not_lt hge)

theorem sortByWastedDesc_sorted (l : List DuplicateGroup) :
    (sortByWastedDesc l).Pairwise (fun a b => b.wasted_size ≤ a.wasted_size) := by
  induction l with
  | nil => simp [sortByWastedDesc]
  | cons h t ih => exact pairwise_insertDesc h (sortByWastedDesc t) ih

theorem filter_insertDesc (w : Nat) (g : DuplicateGroup)
    (l : List DuplicateGroup) :
    (insertDesc g l).filter (fun x => x.wasted_size = w) =
      if g.wasted_size = w then
        g :: l.filter (fun x => x.wasted_size = w)
      else l.filter (fun x => x.wasted_size = w) := by
  induction l with
  | nil => by_cases hg : g.wasted_size = w <;> simp [insertDesc, hg]
  | cons h t ih =>
    simp only [insertDesc]
    split
    · rename_i hlt
      by_cases hg : g.wasted_size = w
      · have hh : ¬h.wasted_size = w := by omega
        simp [List.filter_cons, hh, hg, ih]
      · simp [List.filter_cons, hg, ih]
    · by_cases hg : g.wasted_size = w <;> simp [List.filter_cons, hg]

theorem filter_sortByWastedDesc (w : Nat) (l : List DuplicateGroup) :
    (sortByWastedDesc l).filter (fun x => x.wasted_size = w) =
      l.filter (fun x => x.wasted_size = w) := by
  induction l with
  | nil => rfl
  | cons h t ih =>
    have : sortByWastedDesc (h :: t) = insertDesc h (sortByWastedDesc t) := rfl
    rw [this, filter_insertDesc]
    by_cases hh : h.wasted_size = w <;> simp [List.filter_cons, hh, ih]

/-! ### Group-assembly lemmas -/

theorem buildGroups_total_duplicates (hg : List (String × List FileEntry)) :
    (buildGroups hg).2.1 =
      ((buildGroups hg).1.map (fun g => g.files.length - 1)).sum := by
  induction hg with
  | nil => rfl
  | cons p rest ih =>
    rcases p with ⟨h, files⟩
    simp only [buildGroups]
    split
    · simp [ih]
    · exact ih

theorem buildGroups_wasted_space (hg : List (String × List FileEntry)) :
    (buildGroups hg).2.2 =
      ((buildGroups hg).1.map DuplicateGroup.wasted_size).sum := by
  induction hg with
  | nil => rfl
  | cons p rest ih =>
    rcases p with ⟨h, files⟩
    simp only [buildGroups]
    split
    · simp [ih]
    · exact ih

theorem mem_buildGroups (hg : List (String × List FileEntry))
    (g : DuplicateGroup) (h : g ∈ (buildGroups hg).1) :
    ∃ k fl, (k, fl) ∈ hg ∧ 1 < fl.length ∧ g.hash = k ∧ g.files = fl ∧
      g.total_size = (fl.map FileEntry.size).sum ∧
      g.wasted_size = g.total_size - fl.headI.size := by
  induction hg with
  | nil => simp [buildGroups] at h
  | cons p rest ih =>
    rcases p with ⟨k0, fl0⟩
    simp only [buildGroups] at h
    split at h
    · rename_i hlen
      rcases List.mem_cons.mp h with hg0 | hrest
      · subst hg0
        exact ⟨k0, fl0, List.mem_cons_self _ _, hlen, rfl, rfl, rfl, rfl⟩
      · obtain ⟨k, fl, hmem, h1, h2, h3, h4, h5⟩ := ih hrest
        exact ⟨k, fl, List.mem_cons_of_mem _ hmem, h1, h2, h3, h4, h5⟩
    · obtain ⟨k, fl, hmem, h1, h2, h3, h4, h5⟩ := ih h
      exact ⟨k, fl, List.mem_cons_of_mem _ hmem, h1, h2, h3, h4, h5⟩

/-! ### Keyed-grouping lemmas -/

theorem findBucket_insertBy {κ : Type} [DecidableEq κ] (k k' : κ)
    (f : FileEntry) (acc : List (κ × List FileEntry)) :
    findBucket k (insertBy k' f acc) =
      if k' = k then findBucket k acc ++ [f] else findBucket k acc := by
  induction acc with
  | nil => by_cases h : k' = k <;> simp [insertBy, findBucket, h]
  | cons p rest ih =>
    rcases p with ⟨k0, fl⟩
    simp only [insertBy]
    by_cases h0 : k0 = k'
    · subst h0
      by_cases hk : k0 = k <;> simp [findBucket, hk]
    · by_cases hk : k0 = k
      · subst hk
        have : ¬k' = k0 := fun h => h0 h.symm
        simp [findBucket, h0, this]
      · simp [findBucket, h0, hk, ih]

theorem keys_insertBy {κ : Type} [DecidableEq κ] (k : κ) (f : FileEntry)
    (acc : List (κ × List FileEntry)) :
    (insertBy k f acc).map Prod.fst =
      if k ∈ acc.map Prod.fst then acc.map Prod.fst
      else acc.map Prod.fst ++ [k] := by
  induction acc with
  | nil => simp [insertBy]
  | cons p rest ih =>
    rcases p with ⟨k0, fl⟩
    simp only [insertBy]
    by_cases h0 : k0 = k
    · subst h0; simp
    · have hne : ¬k = k0 := fun h => h0 h.symm
      simp only [if_neg h0, List.map_cons, ih, List.mem_cons]
      by_cases hmem : k ∈ rest.map Prod.fst
      · simp [hmem, hne]
      · simp [hmem, hne]

theorem keys_nodup_insertBy {κ : Type} [DecidableEq κ] (k : κ) (f : FileEntry)
    (acc : List (κ × List FileEntry))
    (hnd : (acc.map Prod.fst).Nodup) :
    ((insertBy k f acc).map Prod.fst).Nodup := by
  rw [keys_insertBy]
  by_cases hk : k ∈ acc.map Prod.fst
  · simpa [hk] using hnd
  · simp only [if_neg hk]
    simp [List.nodup_append, hnd, hk]

theorem findBucket_mem {κ : Type} [DecidableEq κ] (k : κ)
    (acc : List (κ × List FileEntry)) (h : findBucket k acc ≠ []) :
    (k, findBucket k acc) ∈ acc := by
  induction acc with
  | nil => simp [findBucket] at h
  | cons p rest ih =>
    rcases p with ⟨k0, fl⟩
    by_cases hk : k0 = k
    · subst hk
      simp only [findBucket, if_pos rfl] at h ⊢
      exact List.mem_cons_self _ _
    · simp only [findBucket, if_neg hk] at h ⊢
      exact List.mem_cons_of_mem _ (ih h)

theorem findBucket_of_mem_nodup {κ : Type} [DecidableEq κ]
    (acc : List (κ × List FileEntry)) (k : κ) (fl : List FileEntry)
    (hnd : (acc.map Prod.fst).Nodup) (h : (k, fl) ∈ acc) :
    findBucket k acc = fl := by
  induction acc with
  | nil => simp at h
  | cons p rest ih =>
    rcases p with ⟨k0, fl0⟩
    rcases List.mem_cons.mp h with hp | hrest
    · cases hp
      simp [findBucket]
    · have hcons : ((k0, fl0) :: rest).map Prod.fst =
          k0 :: rest.map Prod.fst := rfl
      rw [hcons] at hnd
      have hnd' : (rest.map Prod.fst).Nodup := (List.nodup_cons.mp hnd).2
      have hk0 : ¬k0 = k := by
        intro hk
        subst hk
        exact (List.nodup_cons.mp hnd).1
          (List.mem_map.mpr ⟨(k0, fl), hrest, rfl⟩)
      simp only [findBucket, if_neg hk0]
      exact ih hnd' hrest

theorem findBucket_groupByKey_go {κ : Type} [DecidableEq κ]
    (key : FileEntry → Option κ) (l : List FileEntry)
    (acc : List (κ × List FileEntry)) (k : κ) :
    findBucket k (l.foldl (fun acc f =>
        match key f with
        | some k' => insertBy k' f acc
        | none => acc) acc) =
      findBucket k acc ++ l.filter (fun f => key f = some k) := by
  induction l generalizing acc with
  | nil => simp
  | cons f rest ih =>
    simp only [List.foldl_cons]
    cases hkf : key f with
    | none => rw [ih]; simp [List.filter_cons, hkf]
    | some k' =>
      rw [ih, findBucket_insertBy]
      by_cases hk : k' = k
      · subst hk
        simp [List.filter_cons, hkf]
      · have hne : ¬(key f = some k) := by simp [hkf, hk]
        simp [List.filter_cons, hne, hk]

theorem findBucket_groupByKey {κ : Type} [DecidableEq κ]
    (key : FileEntry → Option κ) (files : List FileEntry) (k : κ) :
    findBucket k (groupByKey key files) =
      files.filter (fun f => key f = some k) := by
  have := findBucket_groupByKey_go key files [] k
  simpa [groupByKey, findBucket] using this

theorem keys_nodup_groupByKey_go {κ : Type} [DecidableEq κ]
    (key : FileEntry → Option κ) (l : List FileEntry)
    (acc : List (κ × List FileEntry)) (hnd : (acc.map Prod.fst).Nodup) :
    ((l.foldl (fun acc f =>
        match key f with
        | some k' => insertBy k' f acc
        | none => acc) acc).map Prod.fst).Nodup := by
  induction l generalizing acc with
  | nil => simpa using hnd
  | cons f rest ih =>
    simp only [List.foldl_cons]
    cases hkf : key f with
    | none => simp [hkf]; exact ih acc hnd
    | some k' => simp [hkf]; exact ih _ (keys_nodup_insertBy k' f acc hnd)

theorem keys_nodup_groupByKey {κ : Type} [DecidableEq κ]
    (key : FileEntry → Option κ) (files : List FileEntry) :
    ((groupByKey key files).map Prod.fst).Nodup :=
  keys_nodup_groupByKey_go key files [] (by simp)

theorem mem_groupByKey_bucket {κ : Type} [DecidableEq κ]
    (key : FileEntry → Option κ) (files : List FileEntry)
    (p : κ × List FileEntry) (hp : p ∈ groupByKey key files) :
    p.2 = files.filter (fun f => key f = some p.1) := by
  have h1 := findBucket_of_mem_nodup (groupByKey key files) p.1 p.2
    (keys_nodup_groupByKey key files) (by simpa using hp)
  rw [← h1, findBucket_groupByKey]

theorem group_by_size_bucket (files : List FileEntry)
    (p : Nat × List FileEntry) (hp : p ∈ group_by_size files) :
    p.2 = files.filter (fun x => x.size = p.1) := by
  have := mem_groupByKey_bucket (fun f => some f.size) files p hp
  rw [this]
  exact List.filter_congr (fun x _ => by simp)

theorem group_by_hash_bucket (files : List FileEntry)
    (p : String × List FileEntry) (hp : p ∈ group_by_hash files) :
    p.2 = files.filter (fun x => x.hash = some p.1) :=
  mem_groupByKey_bucket (fun f => f.hash) files p hp

theorem mem_potentialDuplicates (files : List FileEntry) (f : FileEntry) :
    f ∈ potentialDuplicates files ↔
      f ∈ files ∧ 1 < (files.filter (fun x => x.size = f.size)).length := by
  constructor
  · intro h
    obtain ⟨p, hp, hf⟩ := List.mem_flatMap.mp h
    have hp' := List.mem_filter.mp hp
    have hchar := group_by_size_bucket files p hp'.1
    have hlen : 1 < p.2.length := by simpa using hp'.2
    rw [hchar] at hf hlen
    have hmem := List.mem_filter.mp hf
    have hsize : f.size = p.1 := by simpa using hmem.2
    refine ⟨hmem.1, ?_⟩
    rw [hsize]
    exact hlen
  · rintro ⟨hf, hlen⟩
    have hb : findBucket f.size (group_by_size files) =
        files.filter (fun x => x.size = f.size) := by
      simp only [group_by_size]
      rw [findBucket_groupByKey]
      exact List.filter_congr (fun x _ => by simp)
    have hfb : f ∈ files.filter (fun x => x.size = f.size) :=
      List.mem_filter.mpr ⟨hf, by simp⟩
    have hne : findBucket f.size (group_by_size files) ≠ [] := by
      rw [hb]
      exact List.ne_nil_of_mem hfb
    have hmem := findBucket_mem f.size (group_by_size files) hne
    rw [hb] at hmem
    refine List.mem_flatMap.mpr
      ⟨(f.size, files.filter (fun x => x.size = f.size)),
       List.mem_filter.mpr ⟨hmem, by simpa using hlen⟩, hfb⟩

/-! ### Hash-phase lemmas -/

theorem mem_splitHashResults_ok (rs : List (Except String FileEntry))
    (f : FileEntry) :
    f ∈ (splitHashResults rs).1 ↔ Except.ok f ∈ rs := by
  induction rs with
  | nil => simp [splitHashResults]
  | cons r rest ih =>
    cases r with
    | ok f0 => simp [splitHashResults, ih]
    | error e =>
      by_cases he : e = "Cancelled" <;> simp [splitHashResults, he, ih]

theorem mem_splitHashResults_err (rs : List (Except String FileEntry))
    (e : String) :
    e ∈ (splitHashResults rs).2 ↔
      Except.error e ∈ rs ∧ ¬e = "Cancelled" := by
  induction rs with
  | nil => simp [splitHashResults]
  | cons r rest ih =>
    cases r with
    | ok f0 => simp [splitHashResults, ih]
    | error e0 =>
      by_cases he0 : e0 = "Cancelled"
      · subst he0
        simp only [splitHashResults, if_pos rfl]
        constructor
        · intro h
          obtain ⟨h1, h2⟩ := ih.mp h
          exact ⟨List.mem_cons_of_mem _ h1, h2⟩
        · rintro ⟨h1, h2⟩
          rcases List.mem_cons.mp h1 with heq | h1
          · exact absurd (by injection heq) h2
          · exact ih.mpr ⟨h1, h2⟩
      · simp only [splitHashResults, if_neg he0]
        constructor
        · intro h
          rcases List.mem_cons.mp h with heq | h
          · subst heq
            exact ⟨List.mem_cons_self _ _, he0⟩
          · obtain ⟨h1, h2⟩ := ih.mp h
            exact ⟨List.mem_cons_of_mem _ h1, h2⟩
        · rintro ⟨h1, h2⟩
          rcases List.mem_cons.mp h1 with heq | h1
          · have : e = e0 := by injection heq
            subst this
            exact List.mem_cons_self _ _
          · exact List.mem_cons_of_mem _ (ih.mpr ⟨h1, h2⟩)

theorem splitHashResults_ok_length_le (rs : List (Except String FileEntry)) :
    (splitHashResults rs).1.length ≤ rs.length := by
  induction rs with
  | nil => simp [splitHashResults]
  | cons r rest ih =>
    cases r with
    | ok f0 => simpa [splitHashResults] using ih
    | error e =>
      by_cases he : e = "Cancelled" <;>
        simp [splitHashResults, he] <;> omega

theorem compute_file_hash_ok_elim (fs : FileSys)
    (hC : List Nat → String) (p : String) (h : String)
    (hok : compute_file_hash fs hC p = .ok h) :
    ∃ n b, fs.meta p = .ok n ∧ n ≤ MAX_FILE_SIZE ∧
      fs.content p = .ok b ∧ h = hC b := by
  unfold compute_file_hash at hok
  cases hm : fs.meta p with
  | error e => rw [hm] at hok; exact absurd hok (by simp)
  | ok n =>
    rw [hm] at hok
    dsimp only at hok
    by_cases hn : MAX_FILE_SIZE < n
    · rw [if_pos hn] at hok; exact absurd hok (by simp)
    · rw [if_neg hn] at hok
      cases hc : fs.content p with
      | error e => rw [hc] at hok; exact absurd hok (by simp)
      | ok b =>
        rw [hc] at hok
        dsimp only at hok
        have : hC b = h := by injection hok
        exact ⟨n, b, rfl, Nat.le_of_not_lt hn, rfl, this.symm⟩

theorem compute_file_hash_ok_intro (fs : FileSys)
    (hC : List Nat → String) (p : String) (n : Nat) (b : List Nat)
    (hm : fs.meta p = .ok n) (hn : n ≤ MAX_FILE_SIZE)
    (hc : fs.content p = .ok b) :
    compute_file_hash fs hC p = .ok (hC b) := by
  unfold compute_file_hash
  rw [hm]
  dsimp only
  rw [if_neg (Nat.not_lt.mpr hn), hc]

theorem compute_file_hash_content_error (fs : FileSys)
    (hC : List Nat → String) (p : String) (n : Nat) (e : String)
    (hm : fs.meta p = .ok n) (hn : n ≤ MAX_FILE_SIZE)
    (hc : fs.content p = .error e) :
    compute_file_hash fs hC p = .error e := by
  unfold compute_file_hash
  rw [hm]
  dsimp only
  rw [if_neg (Nat.not_lt.mpr hn), hc]

theorem compute_file_hash_oversize (fs : FileSys)
    (hC : List Nat → String) (p : String) (n : Nat)
    (hm : fs.meta p = .ok n) (hn : MAX_FILE_SIZE < n) :
    compute_file_hash fs hC p =
      .error ("File too large (" ++ toString n ++ " > "
              ++ toString MAX_FILE_SIZE ++ " bytes)") := by
  unfold compute_file_hash
  rw [hm]
  dsimp only
  rw [if_pos hn]

theorem mem_hashMap_ok (fs : FileSys) (hC : List Nat → String)
    (cancel : Nat → Bool) (l : List FileEntry) (st : ScanSt) (f' : FileEntry)
    (h : Except.ok f' ∈ (hashMap fs hC cancel l st).1) :
    ∃ f ∈ l, ∃ hsh, compute_file_hash fs hC f.path = .ok hsh ∧
      f' = { f with hash := some hsh } := by
  induction l generalizing st with
  | nil => simp [hashMap] at h
  | cons f0 rest ih =>
    simp only [hashMap] at h
    rcases List.mem_cons.mp h with hhead | htail
    · unfold hashOne at hhead
      by_cases hc : cancel st.reads
      · simp [loadCancel, hc] at hhead
      · simp only [loadCancel, hc, Bool.false_eq_true, if_false] at hhead
        cases hcf : compute_file_hash fs hC f0.path with
        | error e =>
          rw [hcf] at hhead
          dsimp only at hhead
          exact absurd hhead (by simp)
        | ok hsh =>
          rw [hcf] at hhead
          dsimp only at hhead
          injection hhead with h2
          exact ⟨f0, List.mem_cons_self _ _, hsh, hcf, h2⟩
    · obtain ⟨f, hf, hsh, h1, h2⟩ := ih _ htail
      exact ⟨f, List.mem_cons_of_mem _ hf, hsh, h1, h2⟩

theorem hashMap_state (fs : FileSys) (hC : List Nat → String)
    (cancel : Nat → Bool) (l : List FileEntry) (st : ScanSt) :
    (hashMap fs hC cancel l st).2.total = st.total ∧
    (hashMap fs hC cancel l st).2.totalStores = st.totalStores ∧
    (hashMap fs hC cancel l st).2.current ≤ st.current + l.length := by
  induction l generalizing st with
  | nil => simp [hashMap]
  | cons f rest ih =>
    have h1 : (hashOne fs hC cancel f st).2.total = st.total ∧
        (hashOne fs hC cancel f st).2.totalStores = st.totalStores ∧
        (hashOne fs hC cancel f st).2.current ≤ st.current + 1 := by
      unfold hashOne
      by_cases hc : cancel st.reads
      · simp [loadCancel, hc]
      · cases hcf : compute_file_hash fs hC f.path <;>
          simp [loadCancel, hc, hcf, incCurrent]
    obtain ⟨ha, hb, hcle⟩ := ih (hashOne fs hC cancel f st).2
    refine ⟨?_, ?_, ?_⟩
    · simpa [hashMap, h1.1] using ha
    · simpa [hashMap, h1.2.1] using hb
    · have : (hashMap fs hC cancel rest (hashOne fs hC cancel f st).2).2.current ≤
          st.current + 1 + rest.length :=
        Nat.le_trans hcle (Nat.add_le_add_right h1.2.2 _)
      simpa [hashMap, Nat.add_assoc, Nat.add_comm 1 rest.length] using this

/-! ### Collection lemmas -/

theorem collectEntries_state (cfg : ScannerConfig) (fs : FileSys)
    (cancel : Nat → Bool) (l : List DirEntry) (st : ScanSt) :
    (collectEntries cfg fs cancel l st).2.2.current = st.current ∧
    (collectEntries cfg fs cancel l st).2.2.total = st.total ∧
    (collectEntries cfg fs cancel l st).2.2.totalStores = st.totalStores := by
  induction l generalizing st with
  | nil => simp [collectEntries]
  | cons e rest ih =>
    simp only [collectEntries, loadCancel]
    by_cases hc : cancel st.reads
    · simp [hc]
    · simp only [hc, Bool.false_eq_true, if_false]
      by_cases hf : e.isFile
      · simp only [hf, if_true]
        cases hm : fs.meta e.path with
        | ok size =>
          by_cases hsz : cfg.min_size ≤ size ∧ size ≤ MAX_FILE_SIZE
          · simpa [hsz] using ih _
          · simpa [hsz] using ih _
        | error err => simpa using ih _
      · simpa [hf] using ih _

theorem collectEntries_sound (cfg : ScannerConfig) (fs : FileSys)
    (cancel : Nat → Bool) (l : List DirEntry) (st : ScanSt) :
    ∀ f ∈ (collectEntries cfg fs cancel l st).1,
      ∃ e ∈ l, e.isFile = true ∧ fs.meta e.path = .ok f.size ∧
        cfg.min_size ≤ f.size ∧ f.size ≤ MAX_FILE_SIZE ∧
        f = FileEntry.new e.path (fileName e.path) f.size := by
  induction l generalizing st with
  | nil => simp [collectEntries]
  | cons e rest ih =>
    intro f hf
    simp only [collectEntries, loadCancel] at hf
    by_cases hc : cancel st.reads
    · simp [hc] at hf
    · simp only [hc, Bool.false_eq_true, if_false] at hf
      by_cases hisf : e.isFile
      · simp only [hisf, if_true] at hf
        cases hm : fs.meta e.path with
        | ok size =>
          rw [hm] at hf
          dsimp only at hf
          by_cases hsz : cfg.min_size ≤ size ∧ size ≤ MAX_FILE_SIZE
          · rw [if_pos hsz] at hf
            rcases List.mem_cons.mp hf with heq | htail
            · subst heq
              exact ⟨e, List.mem_cons_self _ _, hisf, hm, hsz.1, hsz.2, rfl⟩
            · obtain ⟨e', he', h⟩ := ih _ f htail
              exact ⟨e', List.mem_cons_of_mem _ he', h⟩
          · rw [if_neg hsz] at hf
            obtain ⟨e', he', h⟩ := ih _ f hf
            exact ⟨e', List.mem_cons_of_mem _ he', h⟩
        | error err =>
          rw [hm] at hf
          dsimp only at hf
          obtain ⟨e', he', h⟩ := ih _ f hf
          exact ⟨e', List.mem_cons_of_mem _ he', h⟩
      · simp only [hisf] at hf
        obtain ⟨e', he', h⟩ := ih _ f (by simpa using hf)
        exact ⟨e', List.mem_cons_of_mem _ he', h⟩

theorem collectEntries_errors (cfg : ScannerConfig) (fs : FileSys)
    (cancel : Nat → Bool) (l : List DirEntry) (st : ScanSt) :
    ∀ e ∈ (collectEntries cfg fs cancel l st).2.1,
      ∃ p m, e = "Failed to read " ++ p ++ ": " ++ m := by
  induction l generalizing st with
  | nil => simp [collectEntries]
  | cons d rest ih =>
    intro e he
    simp only [collectEntries, loadCancel] at he
    by_cases hc : cancel st.reads
    · simp [hc] at he
    · simp only [hc, Bool.false_eq_true, if_false] at he
      by_cases hisf : d.isFile
      · simp only [hisf, if_true] at he
        cases hm : fs.meta d.path with
        | ok size =>
          rw [hm] at he
          dsimp only at he
          by_cases hsz : cfg.min_size ≤ size ∧ size ≤ MAX_FILE_SIZE
          · rw [if_pos hsz] at he
            exact ih _ e he
          · rw [if_neg hsz] at he
            exact ih _ e he
        | error err =>
          rw [hm] at he
          dsimp only at he
          rcases List.mem_cons.mp he with heq | htail
          · exact ⟨d.path, err, heq⟩
          · exact ih _ e htail
      · simp only [hisf] at he
        exact ih _ e (by simpa using he)

theorem collectRoots_sound (cfg : ScannerConfig) (fs : FileSys)
    (cancel : Nat → Bool) (paths : List String) :
    ∀ (files0 : List FileEntry) (errs0 : List String) (st : ScanSt),
      (∀ f ∈ files0, CollectedOk cfg fs f) →
      ∀ f ∈ (collectRoots cfg fs cancel paths files0 errs0 st).2.1,
        CollectedOk cfg fs f := by
  induction paths with
  | nil =>
    intro files0 errs0 st h0 f hf
    simp only [collectRoots] at hf
    exact h0 f hf
  | cons p rest ih =>
    intro files0 errs0 st h0 f hf
    simp only [collectRoots, loadCancel] at hf
    by_cases hc : cancel st.reads
    · simp only [hc, if_true] at hf
      exact h0 f hf
    · simp only [hc, Bool.false_eq_true, if_false] at hf
      refine ih _ _ _ ?_ f hf
      intro g hg
      rcases List.mem_append.mp hg with hg0 | hgc
      · exact h0 g hg0
      · simp only [collect_files_with_cancel] at hgc
        obtain ⟨e, _, _, hm, h1, h2, h3⟩ :=
          collectEntries_sound cfg fs cancel _ _ g hgc
        refine ⟨?_, h1, h2, ?_⟩
        · rw [h3]; exact hm
        · rw [h3]; rfl

theorem collectRoots_state (cfg : ScannerConfig) (fs : FileSys)
    (cancel : Nat → Bool) (paths : List String) :
    ∀ (files0 : List FileEntry) (errs0 : List String) (st : ScanSt),
      (collectRoots cfg fs cancel paths files0 errs0 st).2.2.2.current =
        st.current ∧
      (collectRoots cfg fs cancel paths files0 errs0 st).2.2.2.total =
        st.total ∧
      (collectRoots cfg fs cancel paths files0 errs0 st).2.2.2.totalStores =
        st.totalStores := by
  induction paths with
  | nil => intro files0 errs0 st; simp [collectRoots]
  | cons p rest ih =>
    intro files0 errs0 st
    simp only [collectRoots, loadCancel]
    by_cases hc : cancel st.reads
    · simp [hc]
    · simp only [hc, Bool.false_eq_true, if_false]
      obtain ⟨h1, h2, h3⟩ := collectEntries_state cfg fs cancel
        (fs.walk p cfg.recursive) { st with reads := st.reads + 1 }
      obtain ⟨g1, g2, g3⟩ := ih
        (files0 ++ (collect_files_with_cancel cfg fs cancel p
          { st with reads := st.reads + 1 }).1)
        (errs0 ++ (collect_files_with_cancel cfg fs cancel p
          { st with reads := st.reads + 1 }).2.1)
        (collect_files_with_cancel cfg fs cancel p
          { st with reads := st.reads + 1 }).2.2
      refine ⟨?_, ?_, ?_⟩
      · rw [g1]; simpa [collect_files_with_cancel] using h1
      · rw [g2]; simpa [collect_files_with_cancel] using h2
      · rw [g3]; simpa [collect_files_with_cancel] using h3

theorem collectRoots_errors (cfg : ScannerConfig) (fs : FileSys)
    (cancel : Nat → Bool) (paths : List String) :
    ∀ (files0 : List FileEntry) (errs0 : List String) (st : ScanSt),
      (∀ e ∈ errs0, ∃ p m, e = "Failed to read " ++ p ++ ": " ++ m) →
      ∀ e ∈ (collectRoots cfg fs cancel paths files0 errs0 st).2.2.1,
        ∃ p m, e = "Failed to read " ++ p ++ ": " ++ m := by
  induction paths with
  | nil =>
    intro files0 errs0 st h0 e he
    simp only [collectRoots] at he
    exact h0 e he
  | cons p rest ih =>
    intro files0 errs0 st h0 e he
    simp only [collectRoots, loadCancel] at he
    by_cases hc : cancel st.reads
    · simp only [hc, if_true] at he
      exact h0 e he
    · simp only [hc, Bool.false_eq_true, if_false] at he
      refine ih _ _ _ ?_ e he
      intro e' he'
      rcases List.mem_append.mp he' with he0 | hec
      · exact h0 e' he0
      · simp only [collect_files_with_cancel] at hec
        exact collectEntries_errors cfg fs cancel _ _ e' hec

/-! ### No-cancellation normal forms -/

theorem collectEntries_nc (cfg : ScannerConfig) (fs : FileSys)
    (cancel : Nat → Bool) (hnc : ∀ i, cancel i = false) (l : List DirEntry) :
    ∀ st : ScanSt, ∃ st', collectEntries cfg fs cancel l st =
      ((collectEntriesNC cfg fs l).1, (collectEntriesNC cfg fs l).2, st') := by
  induction l with
  | nil => intro st; exact ⟨st, rfl⟩
  | cons e rest ih =>
    intro st
    obtain ⟨st', hst'⟩ := ih { st with reads := st.reads + 1 }
    simp only [collectEntries, collectEntriesNC, loadCancel, hnc,
      Bool.false_eq_true, if_false]
    by_cases hisf : e.isFile
    · simp only [hisf, if_true]
      cases hm : fs.meta e.path with
      | ok size =>
        dsimp only
        by_cases hsz : cfg.min_size ≤ size ∧ size ≤ MAX_FILE_SIZE
        · exact ⟨st', by rw [hst']; simp [hsz]⟩
        · exact ⟨st', by rw [hst']; simp [hsz]⟩
      | error err => exact ⟨st', by dsimp only; rw [hst']⟩
    · simp only [hisf, Bool.false_eq_true, if_false]
      exact ⟨st', hst'⟩

theorem collectRoots_nc (cfg : ScannerConfig) (fs : FileSys)
    (cancel : Nat → Bool) (hnc : ∀ i, cancel i = false) (paths : List String) :
    ∀ (files0 : List FileEntry) (errs0 : List String) (st : ScanSt),
      ∃ st', collectRoots cfg fs cancel paths files0 errs0 st =
        (false, files0 ++ (collectRootsNC cfg fs paths).1,
         errs0 ++ (collectRootsNC cfg fs paths).2, st') := by
  induction paths with
  | nil =>
    intro files0 errs0 st
    exact ⟨st, by simp [collectRoots, collectRootsNC]⟩
  | cons p rest ih =>
    intro files0 errs0 st
    simp only [collectRoots, loadCancel, hnc, Bool.false_eq_true, if_false,
      collect_files_with_cancel]
    obtain ⟨st1, h1⟩ := collectEntries_nc cfg fs cancel hnc
      (fs.walk p cfg.recursive) { st with reads := st.reads + 1 }
    rw [h1]
    obtain ⟨st2, h2⟩ := ih
      (files0 ++ (collectEntriesNC cfg fs (fs.walk p cfg.recursive)).1)
      (errs0 ++ (collectEntriesNC cfg fs (fs.walk p cfg.recursive)).2) st1
    rw [h2]
    exact ⟨st2, by simp [collectRootsNC]⟩

theorem hashMap_nc (fs : FileSys) (hC : List Nat → String)
    (cancel : Nat → Bool) (hnc : ∀ i, cancel i = false) (l : List FileEntry) :
    ∀ st : ScanSt, ∃ st',
      hashMap fs hC cancel l st = (l.map (hashOneNC fs hC), st') ∧
      st'.current = st.current +
        (splitHashResults (l.map (hashOneNC fs hC))).1.length ∧
      st'.total = st.total ∧ st'.totalStores = st.totalStores := by
  induction l with
  | nil => intro st; exact ⟨st, rfl, by simp [splitHashResults], rfl, rfl⟩
  | cons f rest ih =>
    intro st
    simp only [hashMap, hashOne, loadCancel, hnc, Bool.false_eq_true, if_false,
      List.map_cons]
    cases hcf : compute_file_hash fs hC f.path with
    | ok h =>
      obtain ⟨st', h1, h2, h3, h4⟩ :=
        ih (incCurrent { st with reads := st.reads + 1 })
      rw [h1]
      refine ⟨st', by rw [hashOneNC, hcf], ?_, h3, h4⟩
      rw [h2]
      simp only [hashOneNC, hcf, splitHashResults, List.length_cons, incCurrent]
      omega
    | error e =>
      obtain ⟨st', h1, h2, h3, h4⟩ := ih { st with reads := st.reads + 1 }
      rw [h1]
      refine ⟨st', by rw [hashOneNC, hcf], ?_, h3, h4⟩
      rw [h2]
      have hf : ¬("Failed to hash " ++ f.path ++ ": " ++ e) = "Cancelled" := by
        intro hcontra
        have hlen := congrArg String.length hcontra
        simp only [String.length_append] at hlen
        have e1 : ("Failed to hash ").length = 15 := rfl
        have e2 : (": ").length = 2 := rfl
        have e3 : ("Cancelled").length = 9 := rfl
        omega
      simp [hashOneNC, hcf, splitHashResults, hf]

/-! ### The scan under a never-set flag equals the pure pipeline -/

theorem scan_nc (cfg : ScannerConfig) (fs : FileSys) (hC : List Nat → String)
    (cancel : Nat → Bool) (hnc : ∀ i, cancel i = false)
    (paths : List String) (st0 : ScanSt) :
    (scan_directories_with_progress cfg fs hC cancel paths st0).1 =
      scanNCResult cfg fs hC paths ∧
    (scan_directories_with_progress cfg fs hC cancel paths st0).2.current =
      (if (potentialDuplicates (collectRootsNC cfg fs paths).1).isEmpty then 0
       else (splitHashResults ((potentialDuplicates
         (collectRootsNC cfg fs paths).1).map (hashOneNC fs hC))).1.length) ∧
    (scan_directories_with_progress cfg fs hC cancel paths st0).2.total =
      (if (potentialDuplicates (collectRootsNC cfg fs paths).1).isEmpty then 0
       else (potentialDuplicates (collectRootsNC cfg fs paths).1).length) ∧
    (scan_directories_with_progress cfg fs hC cancel paths st0).2.totalStores =
      st0.totalStores ++ 0 ::
        (if (potentialDuplicates (collectRootsNC cfg fs paths).1).isEmpty
         then []
         else [(potentialDuplicates (collectRootsNC cfg fs paths).1).length]) := by
  obtain ⟨stc, hcr⟩ := collectRoots_nc cfg fs cancel hnc paths [] []
    (storeTotal 0 (storeCurrent 0 st0))
  have hstc := collectRoots_state cfg fs cancel paths [] []
    (storeTotal 0 (storeCurrent 0 st0))
  rw [hcr] at hstc
  obtain ⟨hc1, hc2, hc3⟩ := hstc
  simp only [storeTotal, storeCurrent] at hc1 hc2 hc3
  unfold scan_directories_with_progress
  simp only [hcr]
  simp only [List.nil_append, loadCancel, hnc, Bool.false_eq_true, if_false]
  by_cases hpd : (potentialDuplicates (collectRootsNC cfg fs paths).1).isEmpty
  · refine ⟨?_, ?_, ?_, ?_⟩
    · simp [scanNCResult, hpd]
    · simpa [hpd] using hc1
    · simpa [hpd] using hc2
    · simp [hpd, hc3]
  · simp only [hpd, Bool.false_eq_true, if_false]
    obtain ⟨st3, hm1, hm2, hm3, hm4⟩ := hashMap_nc fs hC cancel hnc
      (potentialDuplicates (collectRootsNC cfg fs paths).1)
      (storeCurrent 0 (storeTotal
        (potentialDuplicates (collectRootsNC cfg fs paths).1).length
        { stc with reads := stc.reads + 1 + 1 }))
    simp only [hash_files]
    rw [hm1]
    simp only [storeCurrent, storeTotal] at hm2 hm3 hm4
    refine ⟨?_, ?_, ?_, ?_⟩
    · simp [scanNCResult, hpd]
    · simpa using hm2
    · simpa using hm3
    · rw [hm4]
      simp [hc3]

/-! ### Branch facts shared across claims (hold for every cancellation
oracle) -/

theorem scan_sums_invariant (cfg : ScannerConfig) (fs : FileSys)
    (hC : List Nat → String) (cancel : Nat → Bool) (paths : List String)
    (st0 : ScanSt) :
    (scan_directories_with_progress cfg fs hC cancel paths st0).1.total_duplicates
      = (((scan_directories_with_progress cfg fs hC cancel paths
            st0).1.duplicate_groups).map (fun g => g.files.length - 1)).sum ∧
    (scan_directories_with_progress cfg fs hC cancel paths st0).1.wasted_space
      = (((scan_directories_with_progress cfg fs hC cancel paths
            st0).1.duplicate_groups).map DuplicateGroup.wasted_size).sum := by
  unfold scan_directories_with_progress
  rcases hcr : collectRoots cfg fs cancel paths [] []
    (storeTotal 0 (storeCurrent 0 st0)) with ⟨b, files, errors, st⟩
  cases b
  · simp only [hcr]
    by_cases hc : (loadCancel cancel st).1 = true
    · simp [hc]
    · simp only [hc, Bool.false_eq_true, if_false]
      by_cases hpd : (potentialDuplicates files).isEmpty
      · simp [hpd]
      · simp only [hpd, Bool.false_eq_true, if_false]
        by_cases hc2 : (loadCancel cancel (loadCancel cancel st).2).1 = true
        · simp [hc2]
        · simp only [hc2, Bool.false_eq_true, if_false]
          by_cases hc3 : (loadCancel cancel (hash_files fs hC cancel
              (potentialDuplicates files)
              (storeCurrent 0 (storeTotal (potentialDuplicates files).length
                (loadCancel cancel (loadCancel cancel st).2).2))).2.2).1 = true
          · simp [hc3]
          · simp only [hc3, Bool.false_eq_true, if_false]
            constructor
            · rw [buildGroups_total_duplicates]
              exact (((sortByWastedDesc_perm _).map
                (fun g => g.files.length - 1)).sum_eq).symm
            · rw [buildGroups_wasted_space]
              exact (((sortByWastedDesc_perm _).map
                DuplicateGroup.wasted_size).sum_eq).symm
  · simp [hcr]

theorem mem_groups_scan (cfg : ScannerConfig) (fs : FileSys)
    (hC : List Nat → String) (cancel : Nat → Bool) (paths : List String)
    (st0 : ScanSt) (g : DuplicateGroup)
    (hg : g ∈ (scan_directories_with_progress cfg fs hC cancel paths
      st0).1.duplicate_groups) :
    ∃ files st2, (∀ f ∈ files, CollectedOk cfg fs f) ∧
      g ∈ (buildGroups (group_by_hash
        (hash_files fs hC cancel (potentialDuplicates files) st2).1)).1 := by
  unfold scan_directories_with_progress at hg
  rcases hcr : collectRoots cfg fs cancel paths [] []
    (storeTotal 0 (storeCurrent 0 st0)) with ⟨b, files, errors, st⟩
  have hsound : ∀ f ∈ files, CollectedOk cfg fs f := by
    have := collectRoots_sound cfg fs cancel paths [] []
      (storeTotal 0 (storeCurrent 0 st0)) (by simp)
    rw [hcr] at this
    exact this
  cases b
  · simp only [hcr] at hg
    by_cases hc : (loadCancel cancel st).1 = true
    · simp [hc] at hg
    · simp only [hc, Bool.false_eq_true, if_false] at hg
      by_cases hpd : (potentialDuplicates files).isEmpty
      · simp [hpd] at hg
      · simp only [hpd, Bool.false_eq_true, if_false] at hg
        by_cases hc2 : (loadCancel cancel (loadCancel cancel st).2).1 = true
        · simp [hc2] at hg
        · simp only [hc2, Bool.false_eq_true, if_false] at hg
          by_cases hc3 : (loadCancel cancel (hash_files fs hC cancel
              (potentialDuplicates files)
              (storeCurrent 0 (storeTotal (potentialDuplicates files).length
                (loadCancel cancel (loadCancel cancel st).2).2))).2.2).1 = true
          · simp [hc3] at hg
          · simp only [hc3, Bool.false_eq_true, if_false] at hg
            refine ⟨files, storeCurrent 0 (storeTotal
              (potentialDuplicates files).length
              (loadCancel cancel (loadCancel cancel st).2).2), hsound, ?_⟩
            exact (mem_sortByWastedDesc g _).mp hg
  · simp [hcr] at hg

theorem failed_read_ne_cancelled (p m : String) :
    ¬("Failed to read " ++ p ++ ": " ++ m) = "Cancelled" := by
  intro h
  have hlen := congrArg String.length h
  simp only [String.length_append] at hlen
  have e1 : ("Failed to read ").length = 15 := rfl
  have e2 : (": ").length = 2 := rfl
  have e3 : ("Cancelled").length = 9 := rfl
  omega

theorem failed_hash_ne_cancelled (p m : String) :
    ¬("Failed to hash " ++ p ++ ": " ++ m) = "Cancelled" := by
  intro h
  have hlen := congrArg String.length h
  simp only [String.length_append] at hlen
  have e1 : ("Failed to hash ").length = 15 := rfl
  have e2 : (": ").length = 2 := rfl
  have e3 : ("Cancelled").length = 9 := rfl
  omega

theorem scan_errors_not_cancelled (cfg : ScannerConfig) (fs : FileSys)
    (hC : List Nat → String) (cancel : Nat → Bool) (paths : List String)
    (st0 : ScanSt) :
    ∀ e ∈ (scan_directories_with_progress cfg fs hC cancel paths st0).1.errors,
      ¬e = "Cancelled" := by
  unfold scan_directories_with_progress
  rcases hcr : collectRoots cfg fs cancel paths [] []
    (storeTotal 0 (storeCurrent 0 st0)) with ⟨b, files, errors, st⟩
  have herr : ∀ e ∈ errors, ∃ p m, e = "Failed to read " ++ p ++ ": " ++ m := by
    have := collectRoots_errors cfg fs cancel paths [] []
      (storeTotal 0 (storeCurrent 0 st0)) (by simp)
    rw [hcr] at this
    exact this
  have herrne : ∀ e ∈ errors, ¬e = "Cancelled" := by
    intro e he
    obtain ⟨p, m, rfl⟩ := herr e he
    exact failed_read_ne_cancelled p m
  have happ : ∀ st2, ∀ e ∈ errors ++ (hash_files fs hC cancel
      (potentialDuplicates files) st2).2.1, ¬e = "Cancelled" := by
    intro st2 e he
    rcases List.mem_append.mp he with h1 | h1
    · exact herrne e h1
    · simp only [hash_files] at h1
      exact ((mem_splitHashResults_err _ e).mp h1).2
  cases b
  · simp only [hcr]
    by_cases hc : (loadCancel cancel st).1 = true
    · simp only [hc, if_true]
      exact herrne
    · simp only [hc, Bool.false_eq_true, if_false]
      by_cases hpd : (potentialDuplicates files).isEmpty
      · simp only [hpd, if_true]
        exact herrne
      · simp only [hpd, Bool.false_eq_true, if_false]
        by_cases hc2 : (loadCancel cancel (loadCancel cancel st).2).1 = true
        · simp only [hc2, if_true]
          exact herrne
        · simp only [hc2, Bool.false_eq_true, if_false]
          by_cases hc3 : (loadCancel cancel (hash_files fs hC cancel
              (potentialDuplicates files)
              (storeCurrent 0 (storeTotal (potentialDuplicates files).length
                (loadCancel cancel (loadCancel cancel st).2).2))).2.2).1 = true
          · simp only [hc3, if_true]
            exact happ _
          · simp only [hc3, Bool.false_eq_true, if_false]
            exact happ _
  · simp only [hcr]
    exact herrne

theorem hashMap_cur_le_total (fs : FileSys) (hC : List Nat → String)
    (cancel : Nat → Bool) (l : List FileEntry) (st2 : ScanSt)
    (hcur : st2.current = 0) (htot : st2.total = l.length) :
    (hashMap fs hC cancel l st2).2.current ≤
      (hashMap fs hC cancel l st2).2.total := by
  obtain ⟨g1, g2, g3⟩ := hashMap_state fs hC cancel l st2
  rw [g1, htot]
  calc (hashMap fs hC cancel l st2).2.current ≤ st2.current + l.length := g3
    _ = l.length := by rw [hcur]; omega

theorem scan_cur_le_total (cfg : ScannerConfig) (fs : FileSys)
    (hC : List Nat → String) (cancel : Nat → Bool) (paths : List String)
    (st0 : ScanSt) :
    (scan_directories_with_progress cfg fs hC cancel paths st0).2.current ≤
      (scan_directories_with_progress cfg fs hC cancel paths st0).2.total := by
  unfold scan_directories_with_progress
  rcases hcr : collectRoots cfg fs cancel paths [] []
    (storeTotal 0 (storeCurrent 0 st0)) with ⟨b, files, errors, st⟩
  have hst := collectRoots_state cfg fs cancel paths [] []
    (storeTotal 0 (storeCurrent 0 st0))
  rw [hcr] at hst
  obtain ⟨h1, h2, h3⟩ := hst
  simp only [storeTotal, storeCurrent] at h1 h2
  cases b
  · simp only [hcr]
    by_cases hc : (loadCancel cancel st).1 = true
    · simp only [hc, if_true]
      simp [loadCancel, h1, h2]
    · simp only [hc, Bool.false_eq_true, if_false]
      by_cases hpd : (potentialDuplicates files).isEmpty
      · simp only [hpd, if_true]
        simp [loadCancel, h1, h2]
      · simp only [hpd, Bool.false_eq_true, if_false]
        by_cases hc2 : (loadCancel cancel (loadCancel cancel st).2).1 = true
        · simp only [hc2, if_true]
          simp [loadCancel, h1, h2]
        · simp only [hc2, Bool.false_eq_true, if_false]
          by_cases hc3 : (loadCancel cancel (hash_files fs hC cancel
              (potentialDuplicates files)
              (storeCurrent 0 (storeTotal (potentialDuplicates files).length
                (loadCancel cancel (loadCancel cancel st).2).2))).2.2).1 = true
          · simp only [hc3, if_true]
            simp only [hash_files, loadCancel]
            exact hashMap_cur_le_total fs hC cancel _ _
              (by simp [storeCurrent]) (by simp [storeCurrent, storeTotal])
          · simp only [hc3, Bool.false_eq_true, if_false]
            simp only [hash_files, loadCancel]
            exact hashMap_cur_le_total fs hC cancel _ _
              (by simp [storeCurrent]) (by simp [storeCurrent, storeTotal])
  · simp [hcr, h1, h2]

theorem mem_hash_files_elim (fs : FileSys) (hC : List Nat → String)
    (cancel : Nat → Bool) (l : List FileEntry) (st : ScanSt) (m : FileEntry)
    (hm : m ∈ (hash_files fs hC cancel l st).1) :
    ∃ f ∈ l, ∃ n b, fs.meta f.path = .ok n ∧ n ≤ MAX_FILE_SIZE ∧
      fs.content f.path = .ok b ∧ m = { f with hash := some (hC b) } := by
  simp only [hash_files] at hm
  have hok : Except.ok m ∈ (hashMap fs hC cancel l st).1 :=
    (mem_splitHashResults_ok _ m).mp hm
  obtain ⟨f, hf, hsh, hcf, heq⟩ := mem_hashMap_ok fs hC cancel l st m hok
  obtain ⟨n, b, k1, k2, k3, k4⟩ :=
    compute_file_hash_ok_elim fs hC f.path hsh hcf
  exact ⟨f, hf, n, b, k1, k2, k3, by rw [heq, k4]⟩

theorem mem_hashedNC_elim (fs : FileSys) (hC : List Nat → String)
    (l : List FileEntry) (m : FileEntry)
    (hm : m ∈ (splitHashResults (l.map (hashOneNC fs hC))).1) :
    ∃ f ∈ l, ∃ n b, fs.meta f.path = .ok n ∧ n ≤ MAX_FILE_SIZE ∧
      fs.content f.path = .ok b ∧ m = { f with hash := some (hC b) } := by
  have hok := (mem_splitHashResults_ok _ m).mp hm
  obtain ⟨f, hf, hfeq⟩ := List.mem_map.mp hok
  unfold hashOneNC at hfeq
  cases hcf : compute_file_hash fs hC f.path with
  | error e =>
    rw [hcf] at hfeq
    exact absurd hfeq (by simp)
  | ok hsh =>
    rw [hcf] at hfeq
    dsimp only at hfeq
    injection hfeq with heq
    obtain ⟨n, b, k1, k2, k3, k4⟩ :=
      compute_file_hash_ok_elim fs hC f.path hsh hcf
    exact ⟨f, hf, n, b, k1, k2, k3, by rw [← heq, k4]⟩

theorem sum_map_size_const (l : List FileEntry) (c : Nat)
    (h : ∀ f ∈ l, f.size = c) :
    (l.map FileEntry.size).sum = c * l.length := by
  induction l with
  | nil => simp
  | cons f rest ih =>
    have hf : f.size = c := h f (List.mem_cons_self _ _)
    have := ih (fun g hg => h g (List.mem_cons_of_mem _ hg))
    simp [hf, this, Nat.mul_succ, Nat.add_comm]

/-! ### Fixture lemmas: injectivity of the unary digest, consistency of the
example filesystems, soundness of the pure collection -/

theorem encBytes_head (n : Nat) : ∀ (m : Nat) (t u : List Char),
    List.replicate n 'x' ++ ',' :: t = List.replicate m 'x' ++ ',' :: u →
    n = m ∧ t = u := by
  induction n with
  | zero =>
    intro m t u h
    cases m with
    | zero => simpa using h
    | succ m => simp [List.replicate_succ] at h
  | succ n ih =>
    intro m t u h
    cases m with
    | zero => simp [List.replicate_succ] at h
    | succ m =>
      simp only [List.replicate_succ, List.cons_append, List.cons.injEq] at h
      obtain ⟨h3, h4⟩ := ih m t u h.2
      exact ⟨by omega, h4⟩

theorem encBytes_injective : Function.Injective encBytes := by
  intro l1
  induction l1 with
  | nil =>
    intro l2 h
    cases l2 with
    | nil => rfl
    | cons m rest2 =>
      exfalso
      have hlen := congrArg List.length h
      simp [encBytes, encNat] at hlen
      omega
  | cons n rest ih =>
    intro l2 h
    cases l2 with
    | nil =>
      exfalso
      have hlen := congrArg List.length h
      simp [encBytes, encNat] at hlen
    | cons m rest2 =>
      simp only [encBytes, encNat] at h
      obtain ⟨h1, h2⟩ := encBytes_head n m _ _ h
      have h3 : rest = rest2 := ih h2
      rw [h1, h3]

theorem unaryHash_injective : Function.Injective unaryHash := by
  intro a b h
  apply encBytes_injective
  have hd := congrArg String.data h
  simpa [unaryHash] using hd

theorem map_length_consistent (fs : FileSys)
    (hfs : ∀ p, fs.meta p = (fs.content p).map List.length) :
    ∀ p b n, fs.content p = .ok b → fs.meta p = .ok n → n = b.length := by
  intro p b n h1 h2
  rw [hfs p, h1] at h2
  simp only [Except.map] at h2
  injection h2 with h3
  exact h3.symm

theorem collectRootsNC_sound (cfg : ScannerConfig) (fs : FileSys)
    (paths : List String) :
    ∀ f ∈ (collectRootsNC cfg fs paths).1, CollectedOk cfg fs f := by
  obtain ⟨st', h⟩ := collectRoots_nc cfg fs ncancel (fun _ => rfl) paths [] [] {}
  have hs := collectRoots_sound cfg fs ncancel paths [] [] {} (by simp)
  rw [h] at hs
  simpa using hs

theorem mem_groups_scanNC (cfg : ScannerConfig) (fs : FileSys)
    (hC : List Nat → String) (paths : List String) (g : DuplicateGroup)
    (hg : g ∈ (scanNCResult cfg fs hC paths).duplicate_groups) :
    g ∈ (buildGroups (group_by_hash (splitHashResults
      ((potentialDuplicates (collectRootsNC cfg fs paths).1).map
        (hashOneNC fs hC))).1)).1 := by
  unfold scanNCResult at hg
  by_cases hpd : (potentialDuplicates (collectRootsNC cfg fs paths).1).isEmpty
  · simp [hpd] at hg
  · simp only [hpd, Bool.false_eq_true, if_false] at hg
    exact (mem_sortByWastedDesc g _).mp hg

theorem filter_size_le_one (files : List FileEntry) (s : Nat)
    (h : files.Pairwise (fun a b => ¬a.size = b.size)) :
    (files.filter (fun x => x.size = s)).length ≤ 1 := by
  induction files with
  | nil => simp
  | cons f rest ih =>
    obtain ⟨hf, hrest⟩ := List.pairwise_cons.mp h
    by_cases hfs : f.size = s
    · have hempty : rest.filter (fun x => x.size = s) = [] := by
        rw [List.filter_eq_nil_iff]
        intro a ha
        simp only [decide_eq_true_eq]
        intro has
        exact hf a ha (by rw [hfs, has])
      simp [List.filter_cons, hfs, hempty]
    · simpa [List.filter_cons, hfs] using ih hrest

theorem potentialDuplicates_nil_of_distinct (files : List FileEntry)
    (h : files.Pairwise (fun a b => ¬a.size = b.size)) :
    potentialDuplicates files = [] := by
  cases hmem : potentialDuplicates files with
  | nil => rfl
  | cons x t =>
    exfalso
    have hx : x ∈ potentialDuplicates files := by
      rw [hmem]; exact List.mem_cons_self _ _
    have := (mem_potentialDuplicates files x).mp hx
    have hle := filter_size_le_one files x.size h
    omega

/-! ### The claims -/

/-- C1: for every scan — any configuration, filesystem, digest function,
cancellation behaviour and initial counter state — the returned `ScanResult`
satisfies `total_duplicates = Σ (member count − 1)` and
`wasted_space = Σ wasted_size` over its duplicate groups. -/
theorem scan_totals_match_group_sums (cfg : ScannerConfig) (fs : FileSys)
    (hC : List Nat → String) (cancel : Nat → Bool) (paths : List String)
    (st0 : ScanSt) :
    (scan_directories_with_progress cfg fs hC cancel paths
        st0).1.total_duplicates =
      (((scan_directories_with_progress cfg fs hC cancel paths
        st0).1.duplicate_groups).map (fun g => g.files.length - 1)).sum ∧
    (scan_directories_with_progress cfg fs hC cancel paths st0).1.wasted_space =
      (((scan_directories_with_progress cfg fs hC cancel paths
        st0).1.duplicate_groups).map DuplicateGroup.wasted_size).sum :=
  scan_sums_invariant cfg fs hC cancel paths st0

/-- C4: `start_scan` with no selected folders is rejected before any scan
work begins, synchronously, with the configuration error surfaced to the
caller as an `Except.error`; no `ScanResult` is produced, so the error is
not part of any result. -/
theorem start_scan_rejects_empty_roots (fs : FileSys)
    (hC : List Nat → String) (cancel : Nat → Bool) (recursive : Bool) :
    start_scan fs hC cancel recursive [] =
      .error "Please add at least one folder to scan." := rfl

/-- C7: cancellation is safe and silent: for every cancellation oracle the
scan returns a well-formed result (the summary-sum invariants hold on
whatever was accumulated) whose error list never contains the internal
"Cancelled" marker, and when the flag is observed set at the very first
check the scan returns the default empty result immediately. -/
theorem cancelled_scan_wellformed_not_error (cfg : ScannerConfig)
    (fs : FileSys) (hC : List Nat → String) (paths : List String)
    (st0 : ScanSt) :
    (∀ cancel, ¬"Cancelled" ∈
      (scan_directories_with_progress cfg fs hC cancel paths st0).1.errors) ∧
    (∀ cancel,
      (scan_directories_with_progress cfg fs hC cancel paths
          st0).1.total_duplicates =
        (((scan_directories_with_progress cfg fs hC cancel paths
          st0).1.duplicate_groups).map (fun g => g.files.length - 1)).sum ∧
      (scan_directories_with_progress cfg fs hC cancel paths
          st0).1.wasted_space =
        (((scan_directories_with_progress cfg fs hC cancel paths
          st0).1.duplicate_groups).map DuplicateGroup.wasted_size).sum) ∧
    (scan_directories_with_progress cfg fs hC allcancel paths st0).1 = {} := by
  refine ⟨?_, ?_, ?_⟩
  · intro cancel hmem
    exact scan_errors_not_cancelled cfg fs hC cancel paths st0 _ hmem rfl
  · intro cancel
    exact scan_sums_invariant cfg fs hC cancel paths st0
  · cases paths <;> rfl

/-- C10: the scan does not deduplicate collected records by path across
roots: supplying the same directory as two roots collects every file of
that walk twice (the per-root collections are concatenated verbatim), and
on a concrete one-file directory supplied twice the result is a duplicate
group of two members with the identical path — the file is reported as a
duplicate of itself. -/
theorem same_root_twice_duplicates_itself :
    (∀ (cfg : ScannerConfig) (fs : FileSys) (d : String),
      (collectRootsNC cfg fs [d, d]).1 =
        (collectEntriesNC cfg fs (fs.walk d cfg.recursive)).1 ++
        (collectEntriesNC cfg fs (fs.walk d cfg.recursive)).1) ∧
    (scan_directories_with_progress ScannerConfig.default fsOne unaryHash
        ncancel ["d", "d"] {}).1.total_files = 2 ∧
    (scan_directories_with_progress ScannerConfig.default fsOne unaryHash
        ncancel ["d", "d"] {}).1.duplicate_groups.length = 1 ∧
    (∀ g ∈ (scan_directories_with_progress ScannerConfig.default fsOne
        unaryHash ncancel ["d", "d"] {}).1.duplicate_groups,
      g.files.length = 2 ∧ ∀ m ∈ g.files, m.path = "d/a") := by
  refine ⟨?_, by decide, by decide, by decide⟩
  intro cfg fs d
  simp [collectRootsNC]

/-- C9: on a run where the cancellation flag is never observed set, the
result's duplicate-group sequence is sorted by descending `wasted_size`,
and for every wasted-size value the subsequence of groups with that value
equals the corresponding subsequence of the discovery-order group list
(the sort is stable). -/
theorem groups_sorted_descending_stable (cfg : ScannerConfig) (fs : FileSys)
    (hC : List Nat → String) (cancel : Nat → Bool) (paths : List String)
    (st0 : ScanSt) (hnc : ∀ i, cancel i = false) :
    ((scan_directories_with_progress cfg fs hC cancel paths
        st0).1.duplicate_groups).Pairwise
      (fun a b => b.wasted_size ≤ a.wasted_size) ∧
    ∀ w, ((scan_directories_with_progress cfg fs hC cancel paths
        st0).1.duplicate_groups).filter (fun g => g.wasted_size = w) =
      ((buildGroups (group_by_hash (splitHashResults
        ((potentialDuplicates (collectRootsNC cfg fs paths).1).map
          (hashOneNC fs hC))).1)).1).filter
        (fun g => g.wasted_size = w) := by
  obtain ⟨h1, -, -, -⟩ := scan_nc cfg fs hC cancel hnc paths st0
  rw [h1]
  unfold scanNCResult
  by_cases hpd : (potentialDuplicates (collectRootsNC cfg fs paths).1).isEmpty
  · have hnil : potentialDuplicates (collectRootsNC cfg fs paths).1 = [] :=
      List.isEmpty_iff.mp hpd
    simp [hpd, hnil, splitHashResults, group_by_hash, groupByKey, buildGroups]
  · simp only [hpd, Bool.false_eq_true, if_false]
    exact ⟨sortByWastedDesc_sorted _, fun w => filter_sortByWastedDesc w _⟩

/-- C9 witness: on a concrete four-file tree with two duplicate pairs of
equal wasted size, the sorted group list is descending and the groups with
wasted size 1 appear exactly in discovery order. -/
theorem groups_sorted_descending_stable_witness :
    ((scan_directories_with_progress ScannerConfig.default fsTie unaryHash
        ncancel ["t"] {}).1.duplicate_groups).Pairwise
      (fun a b => b.wasted_size ≤ a.wasted_size) ∧
    ((scan_directories_with_progress ScannerConfig.default fsTie unaryHash
        ncancel ["t"] {}).1.duplicate_groups).filter
        (fun g => g.wasted_size = 1) =
      ((buildGroups (group_by_hash (splitHashResults
        ((potentialDuplicates (collectRootsNC ScannerConfig.default fsTie
          ["t"]).1).map (hashOneNC fsTie unaryHash))).1)).1).filter
        (fun g => g.wasted_size = 1) := by
  obtain ⟨h1, h2⟩ := groups_sorted_descending_stable ScannerConfig.default
    fsTie unaryHash ncancel ["t"] {} (fun _ => rfl)
  exact ⟨h1, h2 1⟩

/-- C8: the progress contract: for every cancellation behaviour the
processed counter is at most the total counter at return; and on a run
where the flag is never observed set, the total counter's store trace is
exactly the initial reset to 0 followed — only when the size filter leaves
work — by a single store of the size-filtered file count before hashing,
while the processed counter ends exactly at the number of successfully
hashed files (one increment per success). -/
theorem progress_counter_contract (cfg : ScannerConfig) (fs : FileSys)
    (hC : List Nat → String) (paths : List String) (st0 : ScanSt) :
    (∀ cancel,
      (scan_directories_with_progress cfg fs hC cancel paths st0).2.current ≤
      (scan_directories_with_progress cfg fs hC cancel paths st0).2.total) ∧
    (∀ cancel, (∀ i, cancel i = false) →
      (scan_directories_with_progress cfg fs hC cancel paths
          st0).2.totalStores =
        st0.totalStores ++ 0 ::
          (if (potentialDuplicates (collectRootsNC cfg fs paths).1).isEmpty
           then []
           else [(potentialDuplicates (collectRootsNC cfg fs paths).1).length]) ∧
      (scan_directories_with_progress cfg fs hC cancel paths st0).2.current =
        (if (potentialDuplicates (collectRootsNC cfg fs paths).1).isEmpty
         then 0
         else (splitHashResults ((potentialDuplicates
           (collectRootsNC cfg fs paths).1).map
             (hashOneNC fs hC))).1.length)) := by
  refine ⟨fun cancel => scan_cur_le_total cfg fs hC cancel paths st0, ?_⟩
  intro cancel hnc
  obtain ⟨-, h2, -, h4⟩ := scan_nc cfg fs hC cancel hnc paths st0
  exact ⟨h4, h2⟩

/-- C8 witness: on the concrete three-file tree, the total counter's trace
is `[0, 2]` (reset, then the two size-filtered files) and the processed
counter ends at 2. -/
theorem progress_counter_contract_witness :
    (scan_directories_with_progress ScannerConfig.default fsPair unaryHash
        ncancel ["root"] {}).2.current ≤
      (scan_directories_with_progress ScannerConfig.default fsPair unaryHash
        ncancel ["root"] {}).2.total ∧
    (scan_directories_with_progress ScannerConfig.default fsPair unaryHash
        ncancel ["root"] {}).2.totalStores = [0, 2] ∧
    (scan_directories_with_progress ScannerConfig.default fsPair unaryHash
        ncancel ["root"] {}).2.current = 2 := by
  obtain ⟨h1, h2⟩ := progress_counter_contract ScannerConfig.default fsPair
    unaryHash ["root"] {}
  obtain ⟨h3, h4⟩ := h2 ncancel (fun _ => rfl)
  refine ⟨h1 ncancel, ?_, ?_⟩
  · rw [h3]; decide
  · rw [h4]; decide

/-- C3 counterexample: in a concrete tree whose walk contains a file over
the 10 GiB ceiling, the oversize file is excluded at collection time, other
files are processed normally — but the error list is empty: no error naming
the file is recorded, contrary to the claim. -/
theorem oversize_at_collection_records_no_error :
    (⟨"r/big", true⟩ : DirEntry) ∈ fsBig.walk "r" true ∧
    fsBig.meta "r/big" = .ok (MAX_FILE_SIZE + 1) ∧
    (∀ f ∈ (collectRootsNC ScannerConfig.default fsBig ["r"]).1,
      ¬f.path = "r/big") ∧
    (scan_directories_with_progress ScannerConfig.default fsBig unaryHash
        ncancel ["r"] {}).1.errors = [] ∧
    (scan_directories_with_progress ScannerConfig.default fsBig unaryHash
        ncancel ["r"] {}).1.total_files = 2 ∧
    (scan_directories_with_progress ScannerConfig.default fsBig unaryHash
        ncancel ["r"] {}).1.duplicate_groups.length = 1 := by
  refine ⟨by decide, rfl, by decide, by decide, by decide, by decide⟩

/-- C3 amended: a file exceeding the ceiling at collection time is silently
excluded — no error is recorded for it, and the collection of all other
entries is unchanged; only when an oversize file reaches the hashing phase
does `compute_file_hash` fail with an oversize error, which `hash_files`
records as a message naming the file while excluding it from the hashed
set; in both phases other files are unaffected. -/
theorem oversize_handling_amended (cfg : ScannerConfig) (fs : FileSys)
    (hC : List Nat → String) :
    (∀ (pre post : List DirEntry) (e : DirEntry) (n : Nat),
      e.isFile = true → fs.meta e.path = .ok n → MAX_FILE_SIZE < n →
      collectEntriesNC cfg fs (pre ++ e :: post) =
        collectEntriesNC cfg fs (pre ++ post)) ∧
    (∀ p n, fs.meta p = .ok n → MAX_FILE_SIZE < n →
      compute_file_hash fs hC p = .error ("File too large (" ++ toString n
        ++ " > " ++ toString MAX_FILE_SIZE ++ " bytes)")) ∧
    (∀ (l : List FileEntry) (f : FileEntry) (n : Nat), f ∈ l →
      fs.meta f.path = .ok n → MAX_FILE_SIZE < n →
      ("Failed to hash " ++ f.path ++ ": " ++ ("File too large ("
        ++ toString n ++ " > " ++ toString MAX_FILE_SIZE ++ " bytes)")) ∈
        (splitHashResults (l.map (hashOneNC fs hC))).2 ∧
      ∀ m ∈ (splitHashResults (l.map (hashOneNC fs hC))).1,
        ¬m.path = f.path) := by
  refine ⟨?_, ?_, ?_⟩
  · intro pre post e n hisf hm hn
    induction pre with
    | nil =>
      simp only [List.nil_append, collectEntriesNC, hisf, if_true, hm]
      rw [if_neg]
      intro hcon
      exact absurd hcon.2 (Nat.not_le.mpr hn)
    | cons d pre ih =>
      simp only [List.cons_append, collectEntriesNC, List.append_eq]
      rw [ih]
  · intro p n hm hn
    exact compute_file_hash_oversize fs hC p n hm hn
  · intro l f n hf hm hn
    have hcf := compute_file_hash_oversize fs hC f.path n hm hn
    have hone : hashOneNC fs hC f = .error ("Failed to hash " ++ f.path
        ++ ": " ++ ("File too large (" ++ toString n ++ " > "
        ++ toString MAX_FILE_SIZE ++ " bytes)")) := by
      unfold hashOneNC
      rw [hcf]
    constructor
    · exact (mem_splitHashResults_err _ _).mpr
        ⟨List.mem_map.mpr ⟨f, hf, hone⟩, failed_hash_ne_cancelled f.path _⟩
    · intro m hmem hpath
      obtain ⟨f0, hf0, n', b, q1, q2, q3, q4⟩ :=
        mem_hashedNC_elim fs hC l m hmem
      have hp0 : m.path = f0.path := by rw [q4]
      have hpe : f0.path = f.path := by rw [← hp0, hpath]
      rw [hpe] at q1
      rw [hm] at q1
      injection q1 with hq
      omega

/-- C3 amended witness: on the concrete oversized file, collection of a
surrounding entry list is unchanged by its presence, and hashing it
directly yields the oversize error message. -/
theorem oversize_handling_amended_witness :
    compute_file_hash fsBig unaryHash "r/big" =
      .error ("File too large (" ++ toString (MAX_FILE_SIZE + 1) ++ " > "
        ++ toString MAX_FILE_SIZE ++ " bytes)") ∧
    collectEntriesNC ScannerConfig.default fsBig
        ([⟨"r/a", true⟩] ++ (⟨"r/big", true⟩ : DirEntry) :: [⟨"r/b", true⟩]) =
      collectEntriesNC ScannerConfig.default fsBig
        ([⟨"r/a", true⟩] ++ [⟨"r/b", true⟩]) := by
  obtain ⟨h1, h2, h3⟩ :=
    oversize_handling_amended ScannerConfig.default fsBig unaryHash
  exact ⟨h2 "r/big" (MAX_FILE_SIZE + 1) rfl (by decide),
    h1 [⟨"r/a", true⟩] [⟨"r/b", true⟩] ⟨"r/big", true⟩ (MAX_FILE_SIZE + 1)
      rfl rfl (by decide)⟩

/-- C5: on a run where the flag is never observed set: a collected file
whose byte size is unique within the whole collected set is never passed to
hashing (it is dropped by the size prefilter) and no duplicate-group member
carries its path and size; and when all collected sizes are pairwise
distinct, nothing is hashed — the total counter is never published beyond
its reset and the processed counter stays 0 — and the result has no
duplicate groups. -/
theorem unique_size_never_hashed_or_grouped (cfg : ScannerConfig)
    (fs : FileSys) (hC : List Nat → String) (cancel : Nat → Bool)
    (paths : List String) (st0 : ScanSt) (hnc : ∀ i, cancel i = false) :
    (∀ f ∈ (collectRootsNC cfg fs paths).1,
      ((collectRootsNC cfg fs paths).1.filter
        (fun x => x.size = f.size)).length = 1 →
      ¬f ∈ potentialDuplicates (collectRootsNC cfg fs paths).1 ∧
      ∀ g ∈ (scan_directories_with_progress cfg fs hC cancel paths
          st0).1.duplicate_groups, ∀ m ∈ g.files,
        ¬(m.path = f.path ∧ m.size = f.size)) ∧
    ((collectRootsNC cfg fs paths).1.Pairwise
        (fun a b => ¬a.size = b.size) →
      potentialDuplicates (collectRootsNC cfg fs paths).1 = [] ∧
      (scan_directories_with_progress cfg fs hC cancel paths
        st0).1.duplicate_groups = [] ∧
      (scan_directories_with_progress cfg fs hC cancel paths
        st0).2.totalStores = st0.totalStores ++ [0] ∧
      (scan_directories_with_progress cfg fs hC cancel paths
        st0).2.current = 0) := by
  obtain ⟨h1, h2, h3, h4⟩ := scan_nc cfg fs hC cancel hnc paths st0
  constructor
  · intro f hfmem hcount
    have hnotpd : ¬f ∈ potentialDuplicates (collectRootsNC cfg fs paths).1 := by
      intro hpd
      have := (mem_potentialDuplicates _ f).mp hpd
      omega
    refine ⟨hnotpd, ?_⟩
    intro g hg m hm hc
    obtain ⟨hmp, hms⟩ := hc
    rw [h1] at hg
    have hgb := mem_groups_scanNC cfg fs hC paths g hg
    obtain ⟨k, fl, hkfl, hlen, hh, hfg, ht, hw⟩ := mem_buildGroups _ g hgb
    rw [hfg] at hm
    have hbucket := group_by_hash_bucket _ (k, fl) hkfl
    dsimp only at hbucket
    rw [hbucket] at hm
    obtain ⟨f0, hf0, n, b, q1, q2, q3, q4⟩ :=
      mem_hashedNC_elim fs hC _ m (List.mem_filter.mp hm).1
    have hf0files := ((mem_potentialDuplicates _ f0).mp hf0).1
    have hmsz : m.size = f0.size := by rw [q4]
    have hf0size : f0.size = f.size := by omega
    have hf0filter : f0 ∈ (collectRootsNC cfg fs paths).1.filter
        (fun x => x.size = f.size) :=
      List.mem_filter.mpr ⟨hf0files, by simp [hf0size]⟩
    have hffilter : f ∈ (collectRootsNC cfg fs paths).1.filter
        (fun x => x.size = f.size) :=
      List.mem_filter.mpr ⟨hfmem, by simp⟩
    obtain ⟨x, hx⟩ := List.length_eq_one.mp hcount
    rw [hx] at hf0filter hffilter
    have hxe : f0 = f := by
      rw [List.mem_singleton.mp hf0filter, List.mem_singleton.mp hffilter]
    exact hnotpd (hxe ▸ hf0)
  · intro hdist
    have hpdnil := potentialDuplicates_nil_of_distinct _ hdist
    have hpde : (potentialDuplicates (collectRootsNC cfg fs paths).1).isEmpty
        = true := by
      rw [hpdnil]; rfl
    refine ⟨hpdnil, ?_, ?_, ?_⟩
    · rw [h1]
      unfold scanNCResult
      simp [hpde]
    · rw [h4]
      simp [hpde]
    · rw [h2]
      simp [hpde]

/-- C5 witness: in the three-file tree, `c.txt` (unique size 1) is not
passed to hashing; and in a tree of pairwise distinct sizes the prefilter
leaves nothing and the scan reports no duplicate groups. -/
theorem unique_size_never_hashed_or_grouped_witness :
    ¬(FileEntry.new "root/c.txt" "c.txt" 1) ∈
      potentialDuplicates
        (collectRootsNC ScannerConfig.default fsPair ["root"]).1 ∧
    potentialDuplicates
      (collectRootsNC ScannerConfig.default fsDistinct ["u"]).1 = [] ∧
    (scan_directories_with_progress ScannerConfig.default fsDistinct
      unaryHash ncancel ["u"] {}).1.duplicate_groups = [] := by
  have hlist : (collectRootsNC ScannerConfig.default fsPair ["root"]).1 =
      [FileEntry.new "root/a.txt" "a.txt" 2,
       FileEntry.new "root/b.txt" "b.txt" 2,
       FileEntry.new "root/c.txt" "c.txt" 1] := by decide
  have hA := (unique_size_never_hashed_or_grouped ScannerConfig.default
    fsPair unaryHash ncancel ["root"] {} (fun _ => rfl)).1
    (FileEntry.new "root/c.txt" "c.txt" 1) (by rw [hlist]; simp) (by decide)
  have hB := (unique_size_never_hashed_or_grouped ScannerConfig.default
    fsDistinct unaryHash ncancel ["u"] {} (fun _ => rfl)).2 (by decide)
  exact ⟨hA.1, hB.1, hB.2.1⟩

/-- C6: on a run where the flag is never observed set, if reading the
content of a size-filtered file fails with an I/O error, then an error
message naming the file is recorded in the result's errors, no duplicate
group contains a member with that path, every group member has a populated
digest (never a missing one), and the scan still completes over the
remaining files (the totals are fully assembled). -/
theorem hash_error_recorded_file_excluded (cfg : ScannerConfig)
    (fs : FileSys) (hC : List Nat → String) (cancel : Nat → Bool)
    (paths : List String) (st0 : ScanSt) (hnc : ∀ i, cancel i = false)
    (f : FileEntry) (e : String)
    (hf : f ∈ potentialDuplicates (collectRootsNC cfg fs paths).1)
    (hce : fs.content f.path = .error e) :
    ("Failed to hash " ++ f.path ++ ": " ++ e) ∈
      (scan_directories_with_progress cfg fs hC cancel paths st0).1.errors ∧
    (∀ g ∈ (scan_directories_with_progress cfg fs hC cancel paths
        st0).1.duplicate_groups, ∀ m ∈ g.files, ¬m.path = f.path) ∧
    (∀ g ∈ (scan_directories_with_progress cfg fs hC cancel paths
        st0).1.duplicate_groups, ∀ m ∈ g.files, ¬m.hash = none) ∧
    (scan_directories_with_progress cfg fs hC cancel paths
      st0).1.total_files = (collectRootsNC cfg fs paths).1.length := by
  obtain ⟨h1, -, -, -⟩ := scan_nc cfg fs hC cancel hnc paths st0
  have hffiles := ((mem_potentialDuplicates _ f).mp hf).1
  obtain ⟨hmeta, hmin, hmax, hhash⟩ := collectRootsNC_sound cfg fs paths f hffiles
  have hcf := compute_file_hash_content_error fs hC f.path f.size e hmeta hmax hce
  have hone : hashOneNC fs hC f =
      .error ("Failed to hash " ++ f.path ++ ": " ++ e) := by
    unfold hashOneNC
    rw [hcf]
  have hpdne : ¬(potentialDuplicates
      (collectRootsNC cfg fs paths).1).isEmpty = true := by
    intro hcon
    rw [List.isEmpty_iff.mp hcon] at hf
    simp at hf
  refine ⟨?_, ?_, ?_, ?_⟩
  · rw [h1]
    unfold scanNCResult
    rw [if_neg hpdne]
    exact List.mem_append.mpr (Or.inr ((mem_splitHashResults_err _ _).mpr
      ⟨List.mem_map.mpr ⟨f, hf, hone⟩, failed_hash_ne_cancelled f.path e⟩))
  · intro g hg m hm hpath
    rw [h1] at hg
    have hgb := mem_groups_scanNC cfg fs hC paths g hg
    obtain ⟨k, fl, hkfl, hlen, hfg, hfe, ht, hw⟩ := mem_buildGroups _ g hgb
    rw [hfe] at hm
    have hbucket := group_by_hash_bucket _ (k, fl) hkfl
    dsimp only at hbucket
    rw [hbucket] at hm
    obtain ⟨f0, hf0, n, b, q1, q2, q3, q4⟩ :=
      mem_hashedNC_elim fs hC _ m (List.mem_filter.mp hm).1
    have hp0 : m.path = f0.path := by rw [q4]
    have hpe : f0.path = f.path := by rw [← hp0, hpath]
    rw [hpe] at q3
    rw [q3] at hce
    exact absurd hce (by simp)
  · intro g hg m hm hnone
    rw [h1] at hg
    have hgb := mem_groups_scanNC cfg fs hC paths g hg
    obtain ⟨k, fl, hkfl, hlen, hfg, hfe, ht, hw⟩ := mem_buildGroups _ g hgb
    rw [hfe] at hm
    have hbucket := group_by_hash_bucket _ (k, fl) hkfl
    dsimp only at hbucket
    rw [hbucket] at hm
    obtain ⟨f0, hf0, n, b, q1, q2, q3, q4⟩ :=
      mem_hashedNC_elim fs hC _ m (List.mem_filter.mp hm).1
    rw [q4] at hnone
    simp at hnone
  · rw [h1]
    unfold scanNCResult
    rw [if_neg hpdne]

/-- C6 witness: on the concrete tree where `e/c` is unreadable, the scan
records the formatted error and still counts all three files. -/
theorem hash_error_recorded_file_excluded_witness :
    ("Failed to hash " ++ "e/c" ++ ": " ++ "Permission denied") ∈
      (scan_directories_with_progress ScannerConfig.default fsErr unaryHash
        ncancel ["e"] {}).1.errors ∧
    (scan_directories_with_progress ScannerConfig.default fsErr unaryHash
      ncancel ["e"] {}).1.total_files = 3 := by
  have hlist : potentialDuplicates
      (collectRootsNC ScannerConfig.default fsErr ["e"]).1 =
      [FileEntry.new "e/a" "a" 2, FileEntry.new "e/b" "b" 2,
       FileEntry.new "e/c" "c" 2] := by decide
  have h := hash_error_recorded_file_excluded ScannerConfig.default fsErr
    unaryHash ncancel ["e"] {} (fun _ => rfl)
    (FileEntry.new "e/c" "c" 2) "Permission denied" (by rw [hlist]; simp) rfl
  exact ⟨h.1, by rw [h.2.2.2]; decide⟩

/-- C2: every duplicate group of any scan result has at least two members
and every member's digest equals the group's digest; and — under the spec's
assumption that the digest is collision-free, together with a filesystem
whose metadata sizes agree with its content lengths — all members share one
size, `total_size` is that common size times the member count, and
`wasted_size` is `total_size` minus one member's size. -/
theorem duplicate_group_invariants (cfg : ScannerConfig) (fs : FileSys)
    (hC : List Nat → String) (cancel : Nat → Bool) (paths : List String)
    (st0 : ScanSt) (hInj : Function.Injective hC)
    (hCons : ∀ p b n, fs.content p = .ok b → fs.meta p = .ok n →
      n = b.length)
    (g : DuplicateGroup)
    (hg : g ∈ (scan_directories_with_progress cfg fs hC cancel paths
      st0).1.duplicate_groups) :
    2 ≤ g.files.length ∧
    (∀ m ∈ g.files, m.hash = some g.hash) ∧
    (∀ m ∈ g.files, m.size = g.files.headI.size) ∧
    g.total_size = g.files.headI.size * g.files.length ∧
    g.wasted_size = g.total_size - g.files.headI.size := by
  obtain ⟨files, st2, hsound, hmem⟩ :=
    mem_groups_scan cfg fs hC cancel paths st0 g hg
  obtain ⟨k, fl, hkfl, hlen, hh, hf, ht, hw⟩ := mem_buildGroups _ g hmem
  have hbucket := group_by_hash_bucket _ (k, fl) hkfl
  dsimp only at hbucket
  have hprov : ∀ m ∈ fl, m.hash = some k ∧
      ∃ f0 b, f0 ∈ files ∧ fs.meta f0.path = .ok f0.size ∧
        fs.content f0.path = .ok b ∧
        m = { f0 with hash := some (hC b) } := by
    intro m hm
    rw [hbucket] at hm
    have hmf := List.mem_filter.mp hm
    have hmh : m.hash = some k := by simpa using hmf.2
    obtain ⟨f0, hf0, n, b, q1, q2, q3, q4⟩ :=
      mem_hash_files_elim fs hC cancel _ st2 m hmf.1
    have hf0files := ((mem_potentialDuplicates _ f0).mp hf0).1
    obtain ⟨c1, c2, c3, c4⟩ := hsound f0 hf0files
    exact ⟨hmh, f0, b, hf0files, c1, q3, q4⟩
  have hsz : ∀ m ∈ fl, ∀ m2 ∈ fl, m.size = m2.size := by
    intro m hm m2 hm2
    obtain ⟨hmh, f0, b, r1, r2, r3, r4⟩ := hprov m hm
    obtain ⟨hmh2, f02, b2, s1, s2, s3, s4⟩ := hprov m2 hm2
    have e1 : m.hash = some (hC b) := by rw [r4]
    have e2 : m2.hash = some (hC b2) := by rw [s4]
    rw [e1] at hmh
    rw [e2] at hmh2
    injection hmh with r5
    injection hmh2 with s5
    have hbb : b = b2 := hInj (by rw [r5, s5])
    have hm1 : m.size = f0.size := by rw [r4]
    have hm2s : m2.size = f02.size := by rw [s4]
    have hl1 : f0.size = b.length := hCons f0.path b f0.size r3 r2
    have hl2 : f02.size = b2.length := hCons f02.path b2 f02.size s3 s2
    rw [hm1, hm2s, hl1, hl2, hbb]
  have hne : fl ≠ [] := by
    intro hcon
    rw [hcon] at hlen
    simp at hlen
  have hhead : fl.headI ∈ fl := by
    cases fl with
    | nil => exact absurd rfl hne
    | cons x t => simp
  refine ⟨?_, ?_, ?_, ?_, ?_⟩
  · rw [hf]; omega
  · intro m hm
    rw [hf] at hm
    rw [hh]
    exact (hprov m hm).1
  · intro m hm
    rw [hf] at hm ⊢
    exact hsz m hm fl.headI hhead
  · rw [ht, hf]
    exact sum_map_size_const fl fl.headI.size
      (fun m hm => hsz m hm fl.headI hhead)
  · rw [hw, hf]

/-- C2 witness: the group produced on the concrete three-file tree (two
identical two-byte files) satisfies all the group invariants; the digest
used is the provably collision-free unary encoding and the fixture's
metadata agrees with its content lengths. -/
theorem duplicate_group_invariants_witness :
    ∃ g ∈ (scan_directories_with_progress ScannerConfig.default fsPair
        unaryHash ncancel ["root"] {}).1.duplicate_groups,
      2 ≤ g.files.length ∧
      (∀ m ∈ g.files, m.hash = some g.hash) ∧
      (∀ m ∈ g.files, m.size = g.files.headI.size) ∧
      g.total_size = g.files.headI.size * g.files.length ∧
      g.wasted_size = g.total_size - g.files.headI.size := by
  have hgroups : (scan_directories_with_progress ScannerConfig.default
      fsPair unaryHash ncancel ["root"] {}).1.duplicate_groups =
      [⟨unaryHash [1, 2],
        [⟨"root/a.txt", "a.txt", 2, some (unaryHash [1, 2])⟩,
         ⟨"root/b.txt", "b.txt", 2, some (unaryHash [1, 2])⟩], 4, 2⟩] := by
    decide
  have hmem : (⟨unaryHash [1, 2],
      [⟨"root/a.txt", "a.txt", 2, some (unaryHash [1, 2])⟩,
       ⟨"root/b.txt", "b.txt", 2, some (unaryHash [1, 2])⟩], 4, 2⟩ :
        DuplicateGroup) ∈
      (scan_directories_with_progress ScannerConfig.default fsPair unaryHash
        ncancel ["root"] {}).1.duplicate_groups := by
    rw [hgroups]
    exact List.mem_cons_self _ _
  exact ⟨_, hmem, duplicate_group_invariants ScannerConfig.default fsPair
    unaryHash ncancel ["root"] {} unaryHash_injective
    (map_length_consistent fsPair (fun p => rfl)) _ hmem⟩

end FileXSorter
